import Mathlib

/-!
Formal model of the message-compilation and transaction-signing core of the
solders repository.  The core logic lives in a compiled Rust extension that is
not part of the Python source tree, so the definitions below are modelled from
the specification document (each such definition says so in its doc comment)
and validated against the concrete vectors recorded in the repository's test
suite.  Bytes are modelled as natural numbers below 256, byte strings as lists
of naturals, and machine arithmetic is made explicit with `% 2 ^ 32` where it
matters.
-/

deriving instance DecidableEq for Except

namespace Solders

/-- Bytes are naturals; a byte string is a list of naturals. -/
abbrev Bytes := List Nat

/-- Big-endian interpretation of a byte string as a natural number. -/
def beNat (b : Bytes) : Nat := b.foldl (fun acc x => acc * 256 + x) 0

/-- Little-endian interpretation of a byte string as a natural number. -/
def leNat (b : Bytes) : Nat := b.foldr (fun x acc => acc * 256 + x) 0

/-- Big-endian base-256 digits, structurally recursive on a fuel bound. -/
def natToBytesBEAux : Nat → Nat → Bytes
  | 0, _ => []
  | fuel + 1, n => if n = 0 then [] else natToBytesBEAux fuel (n / 256) ++ [n % 256]

/-- Big-endian base-256 digits of a natural number (empty for zero). -/
def natToBytesBE (n : Nat) : Bytes := natToBytesBEAux n n

/-- Little-endian encoding of `n` in exactly `w` bytes. -/
def natToBytesLE (w n : Nat) : Bytes :=
  match w with
  | 0 => []
  | w + 1 => n % 256 :: natToBytesLE w (n / 256)

/-- The base58 alphabet used for printable addresses. -/
def b58Alphabet : List Char :=
  "123456789ABCDEFGHJKLMNPQRSTUVWXYZabcdefghijkmnopqrstuvwxyz".toList

/-- Character of a base58 digit. -/
def b58Char (d : Nat) : Char := b58Alphabet.getD d '1'

/-- Base58 digit of a character (0 for characters outside the alphabet). -/
def b58Digit (c : Char) : Nat := (b58Alphabet.indexOf c)

/-- Base58 digits, structurally recursive on a fuel bound. -/
def natToB58Aux : Nat → Nat → List Char
  | 0, _ => []
  | fuel + 1, n => if n = 0 then [] else natToB58Aux fuel (n / 58) ++ [b58Char (n % 58)]

/-- Base58 digit characters of a natural number, most significant first. -/
def natToB58 (n : Nat) : List Char := natToB58Aux n n

/-- Modelled from the spec: the base58 collaborator primitive (§6).  Encodes a
byte string as its base58 string: one leading '1' per leading zero byte, then
the base58 digits of the big-endian value. -/
def base58Encode (b : Bytes) : String :=
  String.mk (List.replicate (b.takeWhile (· == 0)).length '1' ++ natToB58 (beNat b))

/-- Modelled from the spec: base58 decoding of a string into a fixed-width
byte string (used only to state concrete test vectors). -/
def base58DecodeFixed (w : Nat) (s : String) : Bytes :=
  let n := s.toList.foldl (fun acc c => acc * 58 + b58Digit c) 0
  let body := natToBytesBE n
  List.replicate (w - body.length) 0 ++ body

/-- Bytes of an ASCII string. -/
def asciiBytes (s : String) : Bytes := s.toList.map Char.toNat

/-! ## SHA-256 (the hashing collaborator primitive, §6) -/

/-- 32-bit truncating addition. -/
def add32 (a b : Nat) : Nat := (a + b) % 4294967296

/-- 32-bit right rotation. -/
def rotr32 (x n : Nat) : Nat := ((x >>> n) ||| (x <<< (32 - n))) % 4294967296

/-- SHA-256 round constants. -/
def sha256K : List Nat :=
  [1116352408, 1899447441, 3049323471, 3921009573, 961987163, 1508970993,
   2453635748, 2870763221, 3624381080, 310598401, 607225278, 1426881987,
   1925078388, 2162078206, 2614888103, 3248222580, 3835390401, 4022224774,
   264347078, 604807628, 770255983, 1249150122, 1555081692, 1996064986,
   2554220882, 2821834349, 2952996808, 3210313671, 3336571891, 3584528711,
   113926993, 338241895, 666307205, 773529912, 1294757372, 1396182291,
   1695183700, 1986661051, 2177026350, 2456956037, 2730485921, 2820302411,
   3259730800, 3345764771, 3516065817, 3600352804, 4094571909, 275423344,
   430227734, 506948616, 659060556, 883997877, 958139571, 1322822218,
   1537002063, 1747873779, 1955562222, 2024104815, 2227730452, 2361852424,
   2428436474, 2756734187, 3204031479, 3329325298]

/-- SHA-256 initial hash state. -/
def sha256H0 : List Nat :=
  [1779033703, 3144134277, 1013904242, 2773480762,
   1359893119, 2600822924, 528734635, 1541459225]

/-- SHA-256 small sigma 0. -/
def ssig0 (x : Nat) : Nat := (rotr32 x 7) ^^^ (rotr32 x 18) ^^^ (x >>> 3)

/-- SHA-256 small sigma 1. -/
def ssig1 (x : Nat) : Nat := (rotr32 x 17) ^^^ (rotr32 x 19) ^^^ (x >>> 10)

/-- SHA-256 big sigma 0. -/
def bsig0 (x : Nat) : Nat := (rotr32 x 2) ^^^ (rotr32 x 13) ^^^ (rotr32 x 22)

/-- SHA-256 big sigma 1. -/
def bsig1 (x : Nat) : Nat := (rotr32 x 6) ^^^ (rotr32 x 11) ^^^ (rotr32 x 25)

/-- Extend the 16 message words into the 64-entry SHA-256 schedule. -/
def sha256Extend (w : List Nat) : Nat → List Nat
  | 0 => w
  | k + 1 =>
    let t := add32 (add32 (ssig1 (w.getD (w.length - 2) 0)) (w.getD (w.length - 7) 0))
      (add32 (ssig0 (w.getD (w.length - 15) 0)) (w.getD (w.length - 16) 0))
    sha256Extend (w ++ [t]) k

/-- Group a byte string into big-endian 32-bit words. -/
def bytesToWordsBE : Bytes → List Nat
  | a :: b :: c :: d :: rest => (((a * 256 + b) * 256 + c) * 256 + d) :: bytesToWordsBE rest
  | _ => []

/-- One SHA-256 round on the eight-word working state. -/
def sha256Round (st : List Nat) (kw : Nat × Nat) : List Nat :=
  match st with
  | [a, b, c, d, e, f, g, h] =>
    let t1 := add32 (add32 (add32 h (bsig1 e)) (add32 ((e &&& f) ^^^ ((4294967295 - e) &&& g)) kw.1)) kw.2
    let t2 := add32 (bsig0 a) (((a &&& b) ^^^ (a &&& c)) ^^^ (b &&& c))
    [add32 t1 t2, a, b, c, add32 d t1, e, f, g]
  | st => st

/-- One SHA-256 block compression. -/
def sha256Block (h : List Nat) (block : Bytes) : List Nat :=
  let w := sha256Extend (bytesToWordsBE block) 48
  let st := (sha256K.zip w).foldl sha256Round h
  (h.zip st).map (fun p => add32 p.1 p.2)

/-- Split a byte string into 64-byte blocks, structurally on a fuel bound. -/
def toBlocksAux : Nat → Bytes → List Bytes
  | 0, b => [b]
  | fuel + 1, b => if b.length ≤ 64 then [b] else b.take 64 :: toBlocksAux fuel (b.drop 64)

/-- Split a byte string into 64-byte blocks. -/
def toBlocks (b : Bytes) : List Bytes := toBlocksAux b.length b

/-- SHA-256 padding of a message. -/
def sha256Pad (m : Bytes) : Bytes :=
  m ++ 128 :: List.replicate ((64 + 55 - m.length % 64) % 64) 0
    ++ (natToBytesLE 8 (m.length * 8)).reverse

/-- Modelled from the spec: the SHA-256 collaborator primitive (§6), producing
the 32-byte digest of a byte string. -/
def sha256 (m : Bytes) : Bytes :=
  let final := (toBlocks (sha256Pad m)).foldl sha256Block sha256H0
  final.flatMap (fun w => (natToBytesLE 4 w).reverse)

/-! ## Ed25519 curve membership (§4.6) -/

/-- The Ed25519 base field modulus. -/
def p25519 : Nat := 2 ^ 255 - 19

/-- The Edwards curve constant d of Ed25519. -/
def edwardsD : Nat :=
  37095705934669439343138083508754565189542113879843219016388785533085940283555

/-- Modular exponentiation, structurally recursive on a fuel bound. -/
def powModAux : Nat → Nat → Nat → Nat → Nat
  | 0, _, _, m => 1 % m
  | fuel + 1, b, e, m =>
    if e = 0 then 1 % m
    else
      let r := powModAux fuel (b * b % m) (e / 2) m
      if e % 2 = 1 then r * b % m else r

/-- Modular exponentiation by binary splitting of the exponent. -/
def powMod (b e m : Nat) : Nat := powModAux e b e m

/-- Euler's criterion: `t` is a square mod 2²⁵⁵ − 19 iff `t ^ ((p−1)/2)` is 0 or 1. -/
def eulerSquare (t : Nat) : Bool :=
  powMod t ((p25519 - 1) / 2) p25519 ≤ 1

/-- The ratio (y² − 1)/(d·y² + 1) mod 2²⁵⁵ − 19 whose squareness decides
curve membership of a compressed Edwards point with y coordinate `y`. -/
def curveRatio (y : Nat) : Nat :=
  (y * y + p25519 - 1) % p25519
    * powMod ((edwardsD * y * y + 1) % p25519) (p25519 - 2) p25519 % p25519

/-- The y coordinate encoded by a 32-byte compressed point: the low 255 bits
of the little-endian value, reduced into the field. -/
def yCoordinate (b : Bytes) : Nat := (leNat b % 2 ^ 255) % p25519

/-- Modelled from the spec: the Ed25519 curve-membership test of the
cryptographic collaborator (§6), deciding whether a 32-byte candidate is a
valid compressed Edwards point.  The low 255 bits are the y coordinate; the
candidate is on the curve iff (y² − 1)/(d·y² + 1) is a square mod 2²⁵⁵ − 19,
by Euler's criterion. -/
def isOnCurve (b : Bytes) : Bool :=
  eulerSquare (curveRatio (yCoordinate b))

/-! ## Data model (§3) -/

/-- A 32-byte account or program address. -/
abbrev Pubkey := Bytes

/-- A 64-byte Ed25519 signature; all-zero is the unsigned placeholder. -/
abbrev Sig := Bytes

/-- The all-zero "unsigned" placeholder signature. -/
def defaultSignature : Sig := List.replicate 64 0

/-- The System Program's well-known address (base58 "11111111111111111111111111111111"). -/
def systemProgramId : Pubkey := List.replicate 32 0

/-- An account request: a pubkey with signer/writable flags, not yet positioned. -/
structure AccountMeta where
  pubkey : Pubkey
  is_signer : Bool
  is_writable : Bool
deriving DecidableEq, Repr

/-- A user-constructed instruction naming a program, opaque data and accounts. -/
structure Instruction where
  program_id : Pubkey
  data : Bytes
  accounts : List AccountMeta
deriving DecidableEq, Repr

/-- Positional form of an Instruction after compilation. -/
structure CompiledInstruction where
  program_id_index : Nat
  accounts : List Nat
  data : Bytes
deriving DecidableEq, Repr

/-- Counts describing the signer/readonly layout of the account table. -/
structure MessageHeader where
  num_required_signatures : Nat
  num_readonly_signed_accounts : Nat
  num_readonly_unsigned_accounts : Nat
deriving DecidableEq, Repr

/-- A legacy message: header, account table, blockhash and compiled instructions. -/
structure Message where
  header : MessageHeader
  account_keys : List Pubkey
  recent_blockhash : Bytes
  instructions : List CompiledInstruction
deriving DecidableEq, Repr

/-! ## Account-key compiler (§4.1) -/

/-- Modelled from the spec: the account requests contributed by one
instruction — its account metas plus its program id as a readonly
non-signer request (§4.1 always includes referenced programs). -/
def Instruction.requests (ix : Instruction) : List AccountMeta :=
  ix.accounts ++ [⟨ix.program_id, false, false⟩]

/-- Modelled from the spec: all (pubkey, is_signer, is_writable) requests
across the payer and all instructions; the payer is forced to
{is_signer: true, is_writable: true} (§4.1). -/
def allRequests (payer : Option Pubkey) (ixs : List Instruction) : List AccountMeta :=
  (match payer with
   | some p => [⟨p, true, true⟩]
   | none => []) ++ ixs.flatMap Instruction.requests

/-- Merged signer flag of a pubkey: logical OR of `is_signer` over all requests. -/
def mergedIsSigner (reqs : List AccountMeta) (pk : Pubkey) : Bool :=
  reqs.any fun r => decide (r.pubkey = pk) && r.is_signer

/-- Merged writable flag of a pubkey: logical OR of `is_writable` over all requests. -/
def mergedIsWritable (reqs : List AccountMeta) (pk : Pubkey) : Bool :=
  reqs.any fun r => decide (r.pubkey = pk) && r.is_writable

/-- Category of a merged account: 0 writable signer, 1 readonly signer,
2 writable non-signer, 3 readonly non-signer (§3 invariant 2). -/
def categoryRank (reqs : List AccountMeta) (pk : Pubkey) : Nat :=
  match mergedIsSigner reqs pk, mergedIsWritable reqs pk with
  | true, true => 0
  | true, false => 1
  | false, true => 2
  | false, false => 3

/-- Character codes of a string. -/
def charCodes (s : String) : List Nat := s.data.map Char.toNat

/-- Lexicographic comparison of two sequences: character by character, a
strict prefix coming first. -/
def lexLe : List Nat → List Nat → Bool
  | [], _ => true
  | _ :: _, [] => false
  | a :: as, b :: bs => if a < b then true else if a = b then lexLe as bs else false

/-- Ascending lexicographic order of base58 strings (compared character by
character through their codes). -/
def base58Le (a b : Pubkey) : Bool :=
  lexLe (charCodes (base58Encode a)) (charCodes (base58Encode b))

/-- Modelled from the spec: the canonical order on compiled account keys —
ascending category, ties broken by ascending base58 string (§4.1). -/
def keyOrder (reqs : List AccountMeta) (a b : Pubkey) : Prop :=
  categoryRank reqs a < categoryRank reqs b ∨
    (categoryRank reqs a = categoryRank reqs b ∧ base58Le a b = true)

instance (reqs : List AccountMeta) : DecidableRel (keyOrder reqs) := fun a b =>
  inferInstanceAs (Decidable (categoryRank reqs a < categoryRank reqs b ∨
    (categoryRank reqs a = categoryRank reqs b ∧ base58Le a b = true)))

/-- Modelled from the spec: the deduplicated, canonically ordered account
table — payer first, remaining merged keys sorted by `keyOrder` (§4.1). -/
def compiledKeys (payer : Option Pubkey) (ixs : List Instruction) : List Pubkey :=
  let reqs := allRequests payer ixs
  let uniq := (reqs.map AccountMeta.pubkey).dedup
  match payer with
  | some p => p :: List.insertionSort (keyOrder reqs) (uniq.filter fun k => decide (k ≠ p))
  | none => List.insertionSort (keyOrder reqs) uniq

/-- Modelled from the spec: header counts taken directly from the category
sizes of the compiled table (§4.3). -/
def headerOf (reqs : List AccountMeta) (keys : List Pubkey) : MessageHeader :=
  ⟨keys.countP (mergedIsSigner reqs),
   keys.countP fun k => mergedIsSigner reqs k && !mergedIsWritable reqs k,
   keys.countP fun k => !mergedIsSigner reqs k && !mergedIsWritable reqs k⟩

/-- Position of a pubkey in the account table. -/
def indexIn (keys : List Pubkey) (pk : Pubkey) : Option Nat :=
  keys.findIdx? fun k => decide (k = pk)

/-- Sequence a fallible map over a list, failing if any element fails. -/
def optionMapM {α β : Type} (f : α → Option β) : List α → Option (List β)
  | [] => some []
  | a :: l =>
    match f a, optionMapM f l with
    | some b, some bs => some (b :: bs)
    | _, _ => none

/-- Modelled from the spec: the instruction compiler (§4.2) — replace the
program id and each account meta by its table index, preserving the
per-instruction account order; fails if a key is absent. -/
def compileIx (keys : List Pubkey) (ix : Instruction) : Option CompiledInstruction :=
  match indexIn keys ix.program_id,
      optionMapM (fun am => indexIn keys am.pubkey) ix.accounts with
  | some pidx, some accs => some ⟨pidx, accs, ix.data⟩
  | _, _ => none

/-- Modelled from the spec: Message construction from instructions, optional
payer and blockhash (§4.3 `new_with_blockhash`); fails if the table exceeds
256 entries (`TooManyAccountKeys`) or an index is unresolvable. -/
def messageNew (ixs : List Instruction) (payer : Option Pubkey) (blockhash : Bytes) :
    Option Message :=
  if (compiledKeys payer ixs).length ≤ 256 then
    match optionMapM (compileIx (compiledKeys payer ixs)) ixs with
    | none => none
    | some cixs =>
      some ⟨headerOf (allRequests payer ixs) (compiledKeys payer ixs),
        compiledKeys payer ixs, blockhash, cixs⟩
  else none

/-! ## Binary codec and message serialization (§4.7) -/

/-- Compact-length digits, structurally recursive on a fuel bound. -/
def encodeLenAux : Nat → Nat → Bytes
  | 0, _ => []
  | fuel + 1, n => if n < 128 then [n] else (n % 128 + 128) :: encodeLenAux fuel (n / 128)

/-- Modelled from the spec: the compact variable-length encoding of sequence
lengths — 7 value bits per byte, least-significant group first, high bit as
continuation flag (§4.7). -/
def encodeLen (n : Nat) : Bytes := encodeLenAux (n + 1) n

/-- Modelled from the spec: wire form of a compiled instruction —
program index byte, compact-length account indices, compact-length data (§4.7). -/
def serializeCompiledIx (cix : CompiledInstruction) : Bytes :=
  cix.program_id_index ::
    (encodeLen cix.accounts.length ++ cix.accounts ++ encodeLen cix.data.length ++ cix.data)

/-- Modelled from the spec: wire form of a legacy message — header bytes,
compact-length account keys, recent blockhash, compact-length instructions,
in that order (§4.7). -/
def serializeMessage (m : Message) : Bytes :=
  [m.header.num_required_signatures, m.header.num_readonly_signed_accounts,
   m.header.num_readonly_unsigned_accounts]
    ++ encodeLen m.account_keys.length ++ m.account_keys.flatten
    ++ m.recent_blockhash
    ++ encodeLen m.instructions.length ++ m.instructions.flatMap serializeCompiledIx

/-! ## BLAKE3 (the message-hash primitive used for the domain-separated hash, §4.3) -/

/-- Group a byte string into little-endian 32-bit words. -/
def bytesToWordsLE : Bytes → List Nat
  | a :: b :: c :: d :: rest => (((d * 256 + c) * 256 + b) * 256 + a) :: bytesToWordsLE rest
  | _ => []

/-- The BLAKE3 initial chaining value (the SHA-256 initial state words). -/
def blake3IV : List Nat :=
  [1779033703, 3144134277, 1013904242, 2773480762,
   1359893119, 2600822924, 528734635, 1541459225]

/-- The BLAKE3 quarter-round on four state words and two message words. -/
def b3g (a b c d mx my : Nat) : Nat × Nat × Nat × Nat :=
  let a := (a + b + mx) % 4294967296
  let d := rotr32 (d ^^^ a) 16
  let c := (c + d) % 4294967296
  let b := rotr32 (b ^^^ c) 12
  let a := (a + b + my) % 4294967296
  let d := rotr32 (d ^^^ a) 8
  let c := (c + d) % 4294967296
  let b := rotr32 (b ^^^ c) 7
  (a, b, c, d)

/-- One BLAKE3 round: four column and four diagonal quarter-rounds. -/
def b3round (st m : List Nat) : List Nat :=
  match st, m with
  | [s0, s1, s2, s3, s4, s5, s6, s7, s8, s9, s10, s11, s12, s13, s14, s15],
    [m0, m1, m2, m3, m4, m5, m6, m7, m8, m9, m10, m11, m12, m13, m14, m15] =>
    let (t0, t4, t8, t12) := b3g s0 s4 s8 s12 m0 m1
    let (t1, t5, t9, t13) := b3g s1 s5 s9 s13 m2 m3
    let (t2, t6, t10, t14) := b3g s2 s6 s10 s14 m4 m5
    let (t3, t7, t11, t15) := b3g s3 s7 s11 s15 m6 m7
    let (u0, u5, u10, u15) := b3g t0 t5 t10 t15 m8 m9
    let (u1, u6, u11, u12) := b3g t1 t6 t11 t12 m10 m11
    let (u2, u7, u8, u13) := b3g t2 t7 t8 t13 m12 m13
    let (u3, u4, u9, u14) := b3g t3 t4 t9 t14 m14 m15
    [u0, u1, u2, u3, u4, u5, u6, u7, u8, u9, u10, u11, u12, u13, u14, u15]
  | _, _ => st

/-- The BLAKE3 message-word permutation applied between rounds. -/
def b3permute (m : List Nat) : List Nat :=
  match m with
  | [m0, m1, m2, m3, m4, m5, m6, m7, m8, m9, m10, m11, m12, m13, m14, m15] =>
    [m2, m6, m3, m10, m7, m0, m4, m13, m1, m11, m12, m5, m9, m14, m15, m8]
  | _ => m

/-- The BLAKE3 compression function: seven rounds over the 16-word state. -/
def b3compress (cv m : List Nat) (counter blockLen flags : Nat) : List Nat :=
  let st0 := cv ++ [1779033703, 3144134277, 1013904242, 2773480762,
    counter % 4294967296, counter / 4294967296 % 4294967296, blockLen, flags]
  let st1 := b3round st0 m
  let m1 := b3permute m
  let st2 := b3round st1 m1
  let m2 := b3permute m1
  let st3 := b3round st2 m2
  let m3 := b3permute m2
  let st4 := b3round st3 m3
  let m4 := b3permute m3
  let st5 := b3round st4 m4
  let m5 := b3permute m4
  let st6 := b3round st5 m5
  let m6 := b3permute m5
  b3round st6 m6

/-- XOR of the two state halves: the 8-word output of a compression. -/
def b3output (st : List Nat) : List Nat :=
  (List.range 8).map fun i => st.getD i 0 ^^^ st.getD (i + 8) 0

/-- Process the blocks of the single root chunk: flag 1 marks the chunk's
first block, the final block carries flags 2 (chunk end) and 8 (root). -/
def blake3Chunk : List Nat → Bool → List Bytes → Bytes
  | cv, first, [b] =>
    let flags := (if first then 1 else 0) + 2 + 8
    let st := b3compress cv (bytesToWordsLE (b ++ List.replicate (64 - b.length) 0))
      0 b.length flags
    (b3output st).flatMap (natToBytesLE 4)
  | cv, first, b :: rest =>
    let flags := if first then 1 else 0
    let st := b3compress cv (bytesToWordsLE (b ++ List.replicate (64 - b.length) 0))
      0 64 flags
    blake3Chunk (b3output st) false rest
  | _, _, [] => []

/-- Modelled from the spec: the 32-byte BLAKE3 hash of a byte string of at
most one chunk (1024 bytes) — the collaborator hash primitive behind the
domain-separated message hash (§4.3). -/
def blake3 (m : Bytes) : Bytes := blake3Chunk blake3IV true (toBlocks m)

/-- Modelled from the spec: the network-compatible message hash — the
domain-separated hash of the serialized bytes, prefixed with the fixed
literal domain tag (§4.3). -/
def messageDomainTag : Bytes := asciiBytes "solana-tx-message-v1"

/-- Modelled from the spec: `Message.hash` — hash of the serialized message
bytes behind the fixed domain tag (§4.3). -/
def Message.hash (m : Message) : Bytes := blake3 (messageDomainTag ++ serializeMessage m)

/-! ## Signer capability and signing engine (§4.4) -/

/-- A signing key, identified in this model by its public key. -/
structure Keypair where
  pubkey : Pubkey
deriving DecidableEq, Repr

/-- Modelled from the spec: the Ed25519 signing primitive of the
cryptographic collaborator (§6), treated as an opaque deterministic function
of the signing key and the exact message bytes.  The model signature is the
signer's public key followed by the SHA-256 digest of the message: 64 bytes,
deterministic per (key, message), as the interface requires. -/
def ed25519Sign (pk : Pubkey) (msg : Bytes) : Sig := pk ++ sha256 msg

/-- Modelled from the spec: signature verification of the cryptographic
collaborator (§6) — valid iff the signature is the one the keyholder of
`pk` produces over exactly `msg`. -/
def ed25519Verify (sig : Sig) (pk : Pubkey) (msg : Bytes) : Bool :=
  decide (sig = ed25519Sign pk msg)

/-- The closed Signer capability: Keypair, Presigner or NullSigner (§3, §9). -/
inductive Signer where
  | keypair (kp : Keypair)
  | presigner (pk : Pubkey) (sig : Sig)
  | nullSigner (pk : Pubkey)
deriving DecidableEq, Repr

/-- The public key a signer claims to sign for. -/
def Signer.pubkey : Signer → Pubkey
  | .keypair kp => kp.pubkey
  | .presigner pk _ => pk
  | .nullSigner pk => pk

/-- Signing errors (§7). -/
inductive SignerError where
  | keypairPubkeyMismatch
  | notEnoughSigners
  | tooManySigners
  | presignerVerificationFailure
deriving DecidableEq, Repr

/-- Modelled from the spec: signature production per signer variant (§4.4):
a Keypair Ed25519-signs the message bytes; a Presigner returns its stored
signature only if it is valid for these exact bytes; a NullSigner returns
the all-zero placeholder unconditionally. -/
def Signer.trySignMessage : Signer → Bytes → Except SignerError Sig
  | .keypair kp, msg => .ok (ed25519Sign kp.pubkey msg)
  | .presigner pk sig, msg =>
    if ed25519Verify sig pk msg then .ok sig else .error .presignerVerificationFailure
  | .nullSigner _, _ => .ok defaultSignature

/-- A legacy transaction: parallel signature array plus its message. -/
structure Transaction where
  signatures : List Sig
  message : Message
deriving DecidableEq, Repr

/-- Modelled from the spec: `new_unsigned` — one default signature slot per
required signer (§4.4). -/
def Transaction.newUnsigned (m : Message) : Transaction :=
  ⟨List.replicate m.header.num_required_signatures defaultSignature, m⟩

/-- Position of a pubkey among the first `num_required_signatures` account keys. -/
def Message.signerPosition (m : Message) (pk : Pubkey) : Option Nat :=
  indexIn (m.account_keys.take m.header.num_required_signatures) pk

/-- Modelled from the spec: apply one signer — locate its pubkey among the
signer prefix of the account table (else `KeypairPubkeyMismatch`), produce
its signature over the serialized message bytes, and write it into the
matching slot (§4.4). -/
def Transaction.applySigner (tx : Transaction) (s : Signer) :
    Except SignerError Transaction :=
  match tx.message.signerPosition s.pubkey with
  | none => .error .keypairPubkeyMismatch
  | some i =>
    match s.trySignMessage (serializeMessage tx.message) with
    | .error e => .error e
    | .ok sig => .ok ⟨tx.signatures.set i sig, tx.message⟩

/-- Modelled from the spec: apply signers in listed order, stopping at the
first failure and keeping the state already reached ("best effort in order,
stop and report on first mismatch", §4.4). -/
def Transaction.applySigners : Transaction → List Signer → Transaction × Option SignerError
  | tx, [] => (tx, none)
  | tx, s :: rest =>
    match tx.applySigner s with
    | .ok tx2 => tx2.applySigners rest
    | .error e => (tx, some e)

/-- Modelled from the spec: blockhash handling of partial_sign — a different
blockhash replaces the stored one and resets all signatures to default
before any signer is applied; an equal blockhash leaves the state as is (§4.4). -/
def Transaction.resetForBlockhash (tx : Transaction) (blockhash : Bytes) : Transaction :=
  if blockhash = tx.message.recent_blockhash then tx
  else ⟨List.replicate tx.signatures.length defaultSignature,
    { tx.message with recent_blockhash := blockhash }⟩

/-- Modelled from the spec: `partial_sign(signers, blockhash)` (§4.4) —
adjust for the blockhash, then apply the requested signers in order. -/
def Transaction.signBestEffort (tx : Transaction) (signers : List Signer)
    (blockhash : Bytes) : Transaction × Option SignerError :=
  (tx.resetForBlockhash blockhash).applySigners signers

/-- Modelled from the spec: `sign(signers, blockhash)` — partial_sign, then
require every slot to be non-default, else `NotEnoughSigners` (§4.4). -/
def Transaction.signFull (tx : Transaction) (signers : List Signer)
    (blockhash : Bytes) : Transaction × Option SignerError :=
  match tx.signBestEffort signers blockhash with
  | (tx2, some e) => (tx2, some e)
  | (tx2, none) =>
    if tx2.signatures.all fun s => decide (s ≠ defaultSignature) then (tx2, none)
    else (tx2, some .notEnoughSigners)

/-- Modelled from the spec: `is_signed` — every slot non-default and valid
against the current message bytes and its account key (§4.4). -/
def Transaction.isSigned (tx : Transaction) : Bool :=
  (tx.signatures.zip
      (tx.message.account_keys.take tx.message.header.num_required_signatures)).all
    fun p => decide (p.1 ≠ defaultSignature)
      && ed25519Verify p.1 p.2 (serializeMessage tx.message)

/-! ## Positional queries and durable-nonce detection (§4.3, §4.5) -/

/-- Modelled from the spec: `is_writable(i)` — account index `i` is writable
iff it lies in the writable-signer block `[0, r − rs)` or the writable
non-signer block `[r, n − ru)` of the canonical layout (§3 invariant 2);
the spec exposes the query without spelling this out. -/
def Message.is_writable (m : Message) (i : Nat) : Bool :=
  decide (i < m.header.num_required_signatures - m.header.num_readonly_signed_accounts)
    || (decide (m.header.num_required_signatures ≤ i)
      && decide (i < m.account_keys.length - m.header.num_readonly_unsigned_accounts))

/-- Modelled from the spec: `uses_durable_nonce` (§4.5) — return instruction 0
iff it targets the System Program, its first referenced account is writable,
and its data starts with the little-endian 4-byte discriminant 4. -/
def Transaction.usesDurableNonce (tx : Transaction) : Option CompiledInstruction :=
  match tx.message.instructions.head? with
  | none => none
  | some ix =>
    let progOk := decide (tx.message.account_keys[ix.program_id_index]? = some systemProgramId)
    let accOk := match ix.accounts.head? with
      | some a => tx.message.is_writable a
      | none => false
    let dataOk := decide (ix.data.take 4 = [4, 0, 0, 0])
    if progOk && accOk && dataOk then some ix else none

/-! ## Transaction wire format (§4.7): serializer and deserializer -/

/-- Modelled from the spec: wire form of a transaction — compact-length
signature sequence followed by the serialized message (§4.7). -/
def serializeTransaction (tx : Transaction) : Bytes :=
  encodeLen tx.signatures.length ++ tx.signatures.flatten ++ serializeMessage tx.message

/-- Decode one compact-length value, returning it with the remaining input. -/
def decodeLen : Bytes → Option (Nat × Bytes)
  | [] => none
  | b :: rest =>
    if b < 128 then some (b, rest)
    else
      match decodeLen rest with
      | some (n, r) => some (b % 128 + 128 * n, r)
      | none => none

/-- Read a fixed number of bytes from the input. -/
def readChunk (n : Nat) (l : Bytes) : Option (Bytes × Bytes) :=
  if n ≤ l.length then some (l.take n, l.drop n) else none

/-- Read a single byte from the input. -/
def readByte : Bytes → Option (Nat × Bytes)
  | [] => none
  | b :: rest => some (b, rest)

/-- Run a reader a fixed number of times, collecting the results. -/
def readCount {α : Type} (p : Bytes → Option (α × Bytes)) :
    Nat → Bytes → Option (List α × Bytes)
  | 0, l => some ([], l)
  | n + 1, l =>
    match p l with
    | none => none
    | some (x, l1) =>
      match readCount p n l1 with
      | none => none
      | some (xs, l2) => some (x :: xs, l2)

/-- Modelled from the spec: wire decoding of one compiled instruction (§4.7). -/
def parseCompiledIx (l : Bytes) : Option (CompiledInstruction × Bytes) :=
  match readByte l with
  | none => none
  | some (pidx, l1) =>
    match decodeLen l1 with
    | none => none
    | some (na, l2) =>
      match readChunk na l2 with
      | none => none
      | some (accs, l3) =>
        match decodeLen l3 with
        | none => none
        | some (nd, l4) =>
          match readChunk nd l4 with
          | none => none
          | some (dat, l5) => some (⟨pidx, accs, dat⟩, l5)

/-- Modelled from the spec: wire decoding of a legacy message — header bytes,
account keys, recent blockhash, instructions, in wire order (§4.7). -/
def parseMessage (l : Bytes) : Option (Message × Bytes) :=
  match readByte l with
  | none => none
  | some (h1, l1) =>
    match readByte l1 with
    | none => none
    | some (h2, l2) =>
      match readByte l2 with
      | none => none
      | some (h3, l3) =>
        match decodeLen l3 with
        | none => none
        | some (nk, l4) =>
          match readCount (readChunk 32) nk l4 with
          | none => none
          | some (keys, l5) =>
            match readChunk 32 l5 with
            | none => none
            | some (bh, l6) =>
              match decodeLen l6 with
              | none => none
              | some (ni, l7) =>
                match readCount parseCompiledIx ni l7 with
                | none => none
                | some (cixs, l8) => some (⟨⟨h1, h2, h3⟩, keys, bh, cixs⟩, l8)

/-- Modelled from the spec: `Transaction.from_bytes` — decode the signature
sequence then the message, requiring the whole input to be consumed (§4.7). -/
def transactionFromBytes (l : Bytes) : Option Transaction :=
  match decodeLen l with
  | none => none
  | some (ns, l1) =>
    match readCount (readChunk 64) ns l1 with
    | none => none
    | some (sigs, l2) =>
      match parseMessage l2 with
      | none => none
      | some (msg, l3) =>
        match l3 with
        | [] => some ⟨sigs, msg⟩
        | _ :: _ => none

/-! ## Versioned messages and transactions (§3) -/

/-- One address-table lookup of a V0 message. -/
structure MessageAddressTableLookup where
  account_key : Pubkey
  writable_indexes : Bytes
  readonly_indexes : Bytes
deriving DecidableEq, Repr

/-- A V0 message: a legacy layout plus address-table lookups. -/
structure MessageV0 where
  header : MessageHeader
  account_keys : List Pubkey
  recent_blockhash : Bytes
  instructions : List CompiledInstruction
  address_table_lookups : List MessageAddressTableLookup
deriving DecidableEq, Repr

/-- The tagged union of legacy and V0 messages (§3, §9). -/
inductive VersionedMessage where
  | legacy (m : Message)
  | v0 (m : MessageV0)
deriving DecidableEq, Repr

/-- Header of a versioned message. -/
def VersionedMessage.header : VersionedMessage → MessageHeader
  | .legacy m => m.header
  | .v0 m => m.header

/-- Inline (static) account keys of a versioned message. -/
def VersionedMessage.staticAccountKeys : VersionedMessage → List Pubkey
  | .legacy m => m.account_keys
  | .v0 m => m.account_keys

/-- Modelled from the spec: wire form of one address-table lookup (§4.7). -/
def serializeLookup (t : MessageAddressTableLookup) : Bytes :=
  t.account_key ++ encodeLen t.writable_indexes.length ++ t.writable_indexes
    ++ encodeLen t.readonly_indexes.length ++ t.readonly_indexes

/-- Modelled from the spec: wire form of a V0 message — a version tag byte
with the high bit set, then the legacy layout followed by the lookups (§4.7). -/
def serializeMessageV0 (m : MessageV0) : Bytes :=
  128 :: ([m.header.num_required_signatures, m.header.num_readonly_signed_accounts,
    m.header.num_readonly_unsigned_accounts]
      ++ encodeLen m.account_keys.length ++ m.account_keys.flatten
      ++ m.recent_blockhash
      ++ encodeLen m.instructions.length ++ m.instructions.flatMap serializeCompiledIx
      ++ encodeLen m.address_table_lookups.length
      ++ m.address_table_lookups.flatMap serializeLookup)

/-- Serialized bytes of a versioned message — the payload signatures cover. -/
def VersionedMessage.bytes : VersionedMessage → Bytes
  | .legacy m => serializeMessage m
  | .v0 m => serializeMessageV0 m

/-- A versioned transaction: signature array plus a versioned message. -/
structure VersionedTransaction where
  signatures : List Sig
  message : VersionedMessage
deriving DecidableEq, Repr

/-- The required signer keys: the signer prefix of the static account table. -/
def VersionedMessage.expectedSigners (msg : VersionedMessage) : List Pubkey :=
  msg.staticAccountKeys.take msg.header.num_required_signatures

/-- Modelled from the spec: VersionedTransaction construction from a message
and its signers — exactly one keypair per required signer, each signature
written at its pubkey's position in the signer prefix of the account table,
independent of the order of the keypair list. -/
def versionedTryNew (msg : VersionedMessage) (keypairs : List Keypair) :
    Except SignerError VersionedTransaction :=
  if keypairs.length < msg.expectedSigners.length then .error .notEnoughSigners
  else if msg.expectedSigners.length < keypairs.length then .error .tooManySigners
  else
    match optionMapM (fun pk => keypairs.find? fun kp => decide (kp.pubkey = pk))
        msg.expectedSigners with
    | none => .error .keypairPubkeyMismatch
    | some found => .ok ⟨found.map (fun kp => ed25519Sign kp.pubkey msg.bytes), msg⟩

/-- Modelled from the spec: `verify_with_results` — verify each signature
against the message bytes and its corresponding required-signer key. -/
def VersionedTransaction.verifyWithResults (tx : VersionedTransaction) : List Bool :=
  (tx.signatures.zip tx.message.expectedSigners).map
    fun p => ed25519Verify p.1 p.2 tx.message.bytes

/-! ## Program-derived addresses (§4.6) -/

/-- Derivation errors (§4.6, §7). -/
inductive PubkeyError where
  | maxSeedLengthExceeded
  | invalidSeeds
deriving DecidableEq, Repr

/-- The literal marker appended to the hashed seed material of a PDA. -/
def pdaMarker : Bytes := asciiBytes "ProgramDerivedAddress"

/-- Modelled from the spec: `create_program_address(seeds, program_id)` (§4.6)
— validate seed sizes, hash the seeds, program id and marker with SHA-256,
and fail closed if the candidate lies on the Ed25519 curve. -/
def createProgramAddress (seeds : List Bytes) (programId : Pubkey) :
    Except PubkeyError Pubkey :=
  if decide (16 < seeds.length) || seeds.any (fun s => decide (32 < s.length)) then
    .error .maxSeedLengthExceeded
  else if isOnCurve (sha256 (seeds.flatten ++ programId ++ pdaMarker)) then
    .error .invalidSeeds
  else .ok (sha256 (seeds.flatten ++ programId ++ pdaMarker))

/-- Modelled from the spec: the bump search of `find_program_address` —
walk the given bump values, appending each as an extra one-byte seed; an
on-curve candidate means try the next bump, any other failure aborts (§4.6). -/
def tryBumps (seeds : List Bytes) (programId : Pubkey) :
    List Nat → Option (Pubkey × Nat)
  | [] => none
  | b :: rest =>
    match createProgramAddress (seeds ++ [[b]]) programId with
    | .ok addr => some (addr, b)
    | .error .invalidSeeds => tryBumps seeds programId rest
    | .error _ => none

/-- Modelled from the spec: `find_program_address(seeds, program_id)` — try
bump values from 255 down to 0 and return the first off-curve success with
its bump; none if the search exhausts (§4.6). -/
def findProgramAddress (seeds : List Bytes) (programId : Pubkey) :
    Option (Pubkey × Nat) :=
  tryBumps seeds programId (List.range 256).reverse

/-- The BPF loader program id used by the PDA conformance vector. -/
def bpfLoaderId : Pubkey :=
  base58DecodeFixed 32 "BPFLoader1111111111111111111111111111111111"

/-- Six placeholder account keys for the concrete writability check of the
test suite (their contents are irrelevant to `is_writable`). -/
def testKeys6 : List Pubkey := (List.range 6).map fun j => List.replicate 32 j

/-- Payer of the message-hash conformance vector. -/
def c7Payer : Pubkey := base58DecodeFixed 32 "GcdayuLaLyrdmUu324nahyv33G5poQdLUEZ1nEytDeP"

/-- The four fixed instructions of the message-hash conformance vector:
two programs, four distinct account ids, each instruction carrying the
4-byte data 0. -/
def c7Instructions : List Instruction :=
  [⟨base58DecodeFixed 32 "4uQeVj5tqViQh7yWWGStvkEG1Zmhx6uasJtWCJziofM", [0, 0, 0, 0],
    [⟨base58DecodeFixed 32 "CiDwVBFgWV9E5MvXWoLgnEgn2hK7rJikbvfWavzAQz3", false, true⟩]⟩,
   ⟨base58DecodeFixed 32 "4uQeVj5tqViQh7yWWGStvkEG1Zmhx6uasJtWCJziofM", [0, 0, 0, 0],
    [⟨c7Payer, true, true⟩]⟩,
   ⟨base58DecodeFixed 32 "8opHzTAnfzRpPEx21XtnrVTX28YQuCpAjcn1PczScKh", [0, 0, 0, 0],
    [⟨base58DecodeFixed 32 "LX3EUdRUBUa3TbsYXLEUdj9J3prXkWXvLYSWyYyc2Jj", false, false⟩]⟩,
   ⟨base58DecodeFixed 32 "8opHzTAnfzRpPEx21XtnrVTX28YQuCpAjcn1PczScKh", [0, 0, 0, 0],
    [⟨base58DecodeFixed 32 "QRSsyMWN1yHT9ir42bgNZUNZ4PdEhcSWCrL2AryKpy5", true, false⟩]⟩]

/-- A concrete three-account, two-signer message for the signing witnesses. -/
def wMsg : Message :=
  ⟨⟨2, 0, 1⟩, [List.replicate 32 1, List.replicate 32 2, List.replicate 32 3],
   List.replicate 32 0, [⟨2, [0, 1], []⟩]⟩

/-- The unsigned transaction over `wMsg`. -/
def wTx : Transaction := Transaction.newUnsigned wMsg

/-- Payer of the concrete compilation check for the account-key compiler. -/
def c1Payer : Pubkey := List.replicate 32 1

/-- Two concrete instructions sharing a program and an account requested with
different signer/writable flags, to exercise flag merging. -/
def c1Ixs : List Instruction :=
  [⟨List.replicate 32 7, [1],
    [⟨List.replicate 32 2, false, true⟩, ⟨List.replicate 32 3, true, false⟩]⟩,
   ⟨List.replicate 32 7, [2],
    [⟨List.replicate 32 2, true, false⟩, ⟨List.replicate 32 4, false, false⟩]⟩]

/-- The message compiled from the concrete fixture. -/
def c1Msg : Message :=
  (messageNew c1Ixs (some c1Payer) (List.replicate 32 0)).getD ⟨⟨0, 0, 0⟩, [], [], []⟩

/-- Modelled from the spec: validity of a transaction value (§3 data model) —
the signature array parallels the required signers and every fixed-size
field has its wire width. -/
def Transaction.wellFormed (tx : Transaction) : Prop :=
  tx.signatures.length = tx.message.header.num_required_signatures ∧
  (∀ s ∈ tx.signatures, s.length = 64) ∧
  (∀ k ∈ tx.message.account_keys, k.length = 32) ∧
  tx.message.recent_blockhash.length = 32

instance (tx : Transaction) : Decidable tx.wellFormed :=
  inferInstanceAs (Decidable (_ ∧ _ ∧ _ ∧ _))

/-! ## Theorems: program-derived addresses (claim C5) -/

/-- Any successful `create_program_address` result is off the curve, by the
fail-closed check in its definition. -/
theorem createProgramAddress_ok_off_curve {seeds : List Bytes} {pid addr : Pubkey}
    (h : createProgramAddress seeds pid = .ok addr) : isOnCurve addr = false := by
  unfold createProgramAddress at h
  split at h
  · exact absurd h (by simp)
  · split at h
    · exact absurd h (by simp)
    · rename_i hcurve
      cases h
      exact Bool.not_eq_true _ ▸ hcurve

/-- Soundness of the bump walk: a found pair re-derives to the same address. -/
theorem tryBumps_sound (seeds : List Bytes) (pid : Pubkey) :
    ∀ (bumps : List Nat) (addr : Pubkey) (bump : Nat),
      tryBumps seeds pid bumps = some (addr, bump) →
      createProgramAddress (seeds ++ [[bump]]) pid = .ok addr := by
  intro bumps
  induction bumps with
  | nil => intro addr bump h; exact absurd h (by simp [tryBumps])
  | cons b rest ih =>
    intro addr bump h
    unfold tryBumps at h
    cases hc : createProgramAddress (seeds ++ [[b]]) pid with
    | ok a =>
      rw [hc] at h
      simp only [Option.some.injEq, Prod.mk.injEq] at h
      rw [← h.1, ← h.2]
      exact hc
    | error e =>
      rw [hc] at h
      cases e with
      | invalidSeeds => exact ih addr bump h
      | maxSeedLengthExceeded => exact absurd h (by simp)

set_option maxRecDepth 1000000 in
/-- C5: for all seeds and program_id, create_program_address either fails or
returns an address off the Ed25519 curve; find_program_address returns a
pair (addr, bump) that create_program_address reproduces when the bump is
appended as an extra seed; and the concrete conformance vector holds:
deriving from seeds [b"", bytes([1])] under the BPF loader program id yields
the address 3gF2KMe9KiC6FNVBmfg9i267aMPvK37FewCip4eGBFcT. -/
theorem pda_off_curve_find_consistent_and_vector :
    (∀ (seeds : List Bytes) (pid addr : Pubkey),
      createProgramAddress seeds pid = .ok addr → isOnCurve addr = false) ∧
    (∀ (seeds : List Bytes) (pid addr : Pubkey) (bump : Nat),
      findProgramAddress seeds pid = some (addr, bump) →
      createProgramAddress (seeds ++ [[bump]]) pid = .ok addr) ∧
    createProgramAddress [[], [1]] bpfLoaderId =
      .ok (base58DecodeFixed 32 "3gF2KMe9KiC6FNVBmfg9i267aMPvK37FewCip4eGBFcT") := by
  refine ⟨fun _ _ _ h => createProgramAddress_ok_off_curve h,
    fun seeds pid addr bump h => tryBumps_sound seeds pid _ addr bump h, ?_⟩
  have hdig : sha256 (([[], [1]] : List Bytes).flatten ++ bpfLoaderId ++ pdaMarker) =
      [39, 196, 225, 132, 22, 79, 101, 216, 23, 122, 164, 111, 1, 178, 85, 38,
       225, 109, 55, 17, 114, 107, 249, 213, 149, 212, 140, 124, 198, 94, 176, 224] := by
    decide
  have hy : yCoordinate
      [39, 196, 225, 132, 22, 79, 101, 216, 23, 122, 164, 111, 1, 178, 85, 38,
       225, 109, 55, 17, 114, 107, 249, 213, 149, 212, 140, 124, 198, 94, 176, 224] =
      43733652662737265772475987255367868440104822208906285724785338130127906784295 := by
    decide
  have ht : curveRatio
      43733652662737265772475987255367868440104822208906285724785338130127906784295 =
      25000094321971454788081579671035426125952016967623633854514576277144847810622 := by
    decide
  have he : eulerSquare
      25000094321971454788081579671035426125952016967623633854514576277144847810622 = false := by
    decide
  have hexp : base58DecodeFixed 32 "3gF2KMe9KiC6FNVBmfg9i267aMPvK37FewCip4eGBFcT" =
      [39, 196, 225, 132, 22, 79, 101, 216, 23, 122, 164, 111, 1, 178, 85, 38,
       225, 109, 55, 17, 114, 107, 249, 213, 149, 212, 140, 124, 198, 94, 176, 224] := by
    decide
  have hcurve : isOnCurve
      [39, 196, 225, 132, 22, 79, 101, 216, 23, 122, 164, 111, 1, 178, 85, 38,
       225, 109, 55, 17, 114, 107, 249, 213, 149, 212, 140, 124, 198, 94, 176, 224] = false := by
    unfold isOnCurve
    rw [hy, ht]
    exact he
  unfold createProgramAddress
  rw [hdig, hexp, hcurve]
  decide

set_option maxRecDepth 1000000 in
/-- Witness for C5: the concrete search find_program_address([b""], BPF loader)
succeeds at bump 255; the found pair re-derives through create_program_address
and the resulting address is off the curve, both obtained by applying the
claim theorem to this input. -/
theorem pda_off_curve_find_consistent_and_vector_witness :
    createProgramAddress ([[]] ++ [[(255 : Nat)]]) bpfLoaderId =
      .ok [200, 248, 253, 253, 42, 235, 164, 217, 149, 202, 187, 218, 38, 15, 41, 31,
           70, 137, 224, 240, 12, 152, 122, 173, 49, 212, 245, 193, 145, 39, 225, 205] ∧
    isOnCurve [200, 248, 253, 253, 42, 235, 164, 217, 149, 202, 187, 218, 38, 15, 41, 31,
           70, 137, 224, 240, 12, 152, 122, 173, 49, 212, 245, 193, 145, 39, 225, 205] = false := by
  have hdig : sha256 (([[]] ++ [[(255 : Nat)]] : List Bytes).flatten ++ bpfLoaderId ++ pdaMarker) =
      [200, 248, 253, 253, 42, 235, 164, 217, 149, 202, 187, 218, 38, 15, 41, 31,
       70, 137, 224, 240, 12, 152, 122, 173, 49, 212, 245, 193, 145, 39, 225, 205] := by
    decide
  have hy : yCoordinate
      [200, 248, 253, 253, 42, 235, 164, 217, 149, 202, 187, 218, 38, 15, 41, 31,
       70, 137, 224, 240, 12, 152, 122, 173, 49, 212, 245, 193, 145, 39, 225, 205] =
      35225903028212840376597201121654105741901554010106094607773808140445147855048 := by
    decide
  have ht : curveRatio
      35225903028212840376597201121654105741901554010106094607773808140445147855048 =
      46767390653223502738787474573360300814331431559248264254458371370316823875085 := by
    decide
  have he : eulerSquare
      46767390653223502738787474573360300814331431559248264254458371370316823875085 = false := by
    decide
  have hcv : isOnCurve
      [200, 248, 253, 253, 42, 235, 164, 217, 149, 202, 187, 218, 38, 15, 41, 31,
       70, 137, 224, 240, 12, 152, 122, 173, 49, 212, 245, 193, 145, 39, 225, 205] = false := by
    unfold isOnCurve
    rw [hy, ht]
    exact he
  have hcreate : createProgramAddress ([[]] ++ [[(255 : Nat)]]) bpfLoaderId =
      .ok [200, 248, 253, 253, 42, 235, 164, 217, 149, 202, 187, 218, 38, 15, 41, 31,
           70, 137, 224, 240, 12, 152, 122, 173, 49, 212, 245, 193, 145, 39, 225, 205] := by
    unfold createProgramAddress
    rw [hdig, hcv]
    decide
  have hrange : (List.range 256).reverse = 255 :: (List.range 255).reverse := by decide
  have hfind : findProgramAddress [[]] bpfLoaderId =
      some ([200, 248, 253, 253, 42, 235, 164, 217, 149, 202, 187, 218, 38, 15, 41, 31,
             70, 137, 224, 240, 12, 152, 122, 173, 49, 212, 245, 193, 145, 39, 225, 205], 255) := by
    unfold findProgramAddress
    rw [hrange]
    unfold tryBumps
    rw [hcreate]
  have h1 := pda_off_curve_find_consistent_and_vector.2.1 [[]] bpfLoaderId
    [200, 248, 253, 253, 42, 235, 164, 217, 149, 202, 187, 218, 38, 15, 41, 31,
     70, 137, 224, 240, 12, 152, 122, 173, 49, 212, 245, 193, 145, 39, 225, 205] 255 hfind
  exact ⟨h1, pda_off_curve_find_consistent_and_vector.1 _ _ _ h1⟩

/-! ## Theorems: positional writability (claim C9) -/

/-- C9: for a legacy Message with header counts (r, rs, ru) and n account
keys, is_writable(i) holds exactly when i < r − rs or r ≤ i < n − ru; on the
test suite's instance (r, rs, ru) = (3, 2, 1) with six keys the query yields
[true, false, false, true, true, false] on indices 0..5. -/
theorem is_writable_characterization :
    (∀ (m : Message) (i : Nat),
      m.is_writable i = true ↔
        (i < m.header.num_required_signatures - m.header.num_readonly_signed_accounts ∨
          (m.header.num_required_signatures ≤ i ∧
            i < m.account_keys.length - m.header.num_readonly_unsigned_accounts))) ∧
    (List.range 6).map
        (Message.is_writable ⟨⟨3, 2, 1⟩, testKeys6, List.replicate 32 0, []⟩) =
      [true, false, false, true, true, false] := by
  constructor
  · intro m i
    simp [Message.is_writable]
  · decide

/-! ## Theorems: durable-nonce detection (claim C6) -/

/-- C6: uses_durable_nonce() returns the compiled instruction at index 0 iff
the transaction has at least one instruction whose program_id_index resolves
to the System Program address, whose first referenced account is writable,
and whose data begins with the little-endian 4-byte discriminant 4; otherwise
it returns none. -/
theorem uses_durable_nonce_iff (tx : Transaction) (cix : CompiledInstruction) :
    tx.usesDurableNonce = some cix ↔
      (tx.message.instructions.head? = some cix ∧
        tx.message.account_keys[cix.program_id_index]? = some systemProgramId ∧
        (∃ a, cix.accounts.head? = some a ∧ tx.message.is_writable a = true) ∧
        cix.data.take 4 = [4, 0, 0, 0]) := by
  unfold Transaction.usesDurableNonce
  cases hh : tx.message.instructions.head? with
  | none => simp
  | some ix =>
    simp only
    constructor
    · intro h
      split at h
      · rename_i hcond
        cases h
        simp only [Bool.and_eq_true, decide_eq_true_eq] at hcond
        obtain ⟨⟨hprog, hacc⟩, hdata⟩ := hcond
        refine ⟨rfl, hprog, ?_, hdata⟩
        cases ha : cix.accounts.head? with
        | none => rw [ha] at hacc; exact absurd hacc (by simp)
        | some a => rw [ha] at hacc; exact ⟨a, rfl, hacc⟩
      · exact absurd h (by simp)
    · rintro ⟨h1, h2, ⟨a, ha, hw⟩, h4⟩
      injection h1 with h1
      subst h1
      have hcond : (decide (tx.message.account_keys[ix.program_id_index]? = some systemProgramId)
          && (match ix.accounts.head? with
              | some a => tx.message.is_writable a
              | none => false)
          && decide (ix.data.take 4 = [4, 0, 0, 0])) = true := by
        rw [ha]
        simp only [Bool.and_eq_true, decide_eq_true_eq]
        exact ⟨⟨h2, hw⟩, h4⟩
      rw [if_pos hcond]

/-! ## Theorems: the domain-separated message hash (claim C7) -/

set_option maxRecDepth 1000000 in
/-- C7: the message hash of any Message is the domain-separated BLAKE3 hash of
its serialized bytes prefixed with the fixed literal tag
"solana-tx-message-v1"; the conformance message compiled from the four fixed
instructions with its fixed payer hashes to
7VWCF4quo2CcWQFNUayZiorxpiR5ix8YzLebrXKf3fMF. -/
theorem message_hash_domain_tag_and_vector :
    (∀ m : Message,
      m.hash = blake3 (asciiBytes "solana-tx-message-v1" ++ serializeMessage m)) ∧
    (messageNew c7Instructions (some c7Payer) (List.replicate 32 0)).map Message.hash =
      some (base58DecodeFixed 32 "7VWCF4quo2CcWQFNUayZiorxpiR5ix8YzLebrXKf3fMF") := by
  exact ⟨fun m => rfl, by decide⟩

/-! ## Theorems: the signing engine (claims C2, C3, C4) -/

/-- Unfolding equation: the signer loop on a cons cell. -/
theorem applySigners_cons (tx : Transaction) (s : Signer) (rest : List Signer) :
    tx.applySigners (s :: rest) =
      match tx.applySigner s with
      | .ok tx2 => tx2.applySigners rest
      | .error e => (tx, some e) := rfl

/-- Unfolding equation: applying a signer with no matching slot fails. -/
theorem applySigner_of_position_none {tx : Transaction} {s : Signer}
    (hp : tx.message.signerPosition s.pubkey = none) :
    tx.applySigner s = .error .keypairPubkeyMismatch := by
  unfold Transaction.applySigner
  rw [hp]

/-- Unfolding equation: a positioned signer whose signature fails propagates
its error. -/
theorem applySigner_of_sig_error {tx : Transaction} {s : Signer} {j : Nat} {e : SignerError}
    (hp : tx.message.signerPosition s.pubkey = some j)
    (hts : s.trySignMessage (serializeMessage tx.message) = .error e) :
    tx.applySigner s = .error e := by
  unfold Transaction.applySigner
  rw [hp, hts]

/-- Unfolding equation: a positioned signer with a produced signature writes
exactly its slot. -/
theorem applySigner_of_sig_ok {tx : Transaction} {s : Signer} {j : Nat} {sig : Sig}
    (hp : tx.message.signerPosition s.pubkey = some j)
    (hts : s.trySignMessage (serializeMessage tx.message) = .ok sig) :
    tx.applySigner s = .ok ⟨tx.signatures.set j sig, tx.message⟩ := by
  unfold Transaction.applySigner
  rw [hp, hts]

/-- Applying one signer never changes the message, only a signature slot. -/
theorem applySigner_message_eq {tx tx2 : Transaction} {s : Signer}
    (h : tx.applySigner s = .ok tx2) : tx2.message = tx.message := by
  unfold Transaction.applySigner at h
  split at h
  · exact absurd h (by simp)
  · split at h
    · exact absurd h (by simp)
    · cases h
      rfl

/-- Applying a list of signers never changes the message. -/
theorem applySigners_message_eq (signers : List Signer) :
    ∀ tx : Transaction, ((tx.applySigners signers).1).message = tx.message := by
  induction signers with
  | nil => intro tx; rfl
  | cons s rest ih =>
    intro tx
    rw [applySigners_cons]
    cases hs : tx.applySigner s with
    | ok tx2 => simpa [applySigner_message_eq hs] using ih tx2
    | error e => rfl

/-- Replacing the blockhash leaves the signer positions unchanged. -/
theorem signerPosition_resetForBlockhash (tx : Transaction) (bh : Bytes) (pk : Pubkey) :
    ((tx.resetForBlockhash bh).message).signerPosition pk = tx.message.signerPosition pk := by
  unfold Transaction.resetForBlockhash
  split
  · rfl
  · rfl

/-- A clean run over a first batch lets the loop continue on the rest. -/
theorem applySigners_append_of_ok (pre : List Signer) :
    ∀ (tx : Transaction) (rest : List Signer), (tx.applySigners pre).2 = none →
      tx.applySigners (pre ++ rest) = ((tx.applySigners pre).1).applySigners rest := by
  induction pre with
  | nil => intro tx rest _; rfl
  | cons s pre2 ih =>
    intro tx rest h
    rw [List.cons_append]
    cases hs : tx.applySigner s with
    | ok tx2 =>
      have e1 : tx.applySigners (s :: (pre2 ++ rest)) = tx2.applySigners (pre2 ++ rest) := by
        rw [applySigners_cons, hs]
      have e2 : tx.applySigners (s :: pre2) = tx2.applySigners pre2 := by
        rw [applySigners_cons, hs]
      rw [e2] at h
      rw [e1, e2]
      exact ih tx2 rest h
    | error e =>
      have e2 : tx.applySigners (s :: pre2) = (tx, some e) := by
        rw [applySigners_cons, hs]
      rw [e2] at h
      exact absurd h (by simp)

/-- The loop leaves alone every slot that no listed signer is positioned at. -/
theorem applySigners_untouched (signers : List Signer) :
    ∀ (tx : Transaction) (i : Nat),
      (∀ s ∈ signers, tx.message.signerPosition s.pubkey ≠ some i) →
      ((tx.applySigners signers).1).signatures[i]? = tx.signatures[i]? := by
  induction signers with
  | nil => intro tx i _; rfl
  | cons s rest ih =>
    intro tx i h
    rw [applySigners_cons]
    cases hs : tx.applySigner s with
    | error e => rfl
    | ok tx2 =>
      have hmsg : tx2.message = tx.message := applySigner_message_eq hs
      have step : tx2.signatures[i]? = tx.signatures[i]? := by
        cases hp : tx.message.signerPosition s.pubkey with
        | none => rw [applySigner_of_position_none hp] at hs; exact absurd hs (by simp)
        | some j =>
          cases hts : s.trySignMessage (serializeMessage tx.message) with
          | error e => rw [applySigner_of_sig_error hp hts] at hs; exact absurd hs (by simp)
          | ok sig =>
            rw [applySigner_of_sig_ok hp hts] at hs
            injection hs with hs
            rw [← hs]
            have hji : j ≠ i := fun hji => (h s (by simp)) (hji ▸ hp)
            simp [List.getElem?_set_ne hji]
      rw [ih tx2 i fun s2 hs2 => by rw [hmsg]; exact h s2 (by simp [hs2])]
      exact step

/-- C2: when partial_sign (or sign) is given signers whose earlier entries all
apply cleanly and then one whose pubkey is not among the first
num_required_signatures account keys, the call fails with
KeypairPubkeyMismatch and the final state is exactly the state after the
earlier signers: none of the later signers is applied, the earlier
signatures are retained. -/
theorem sign_stops_at_first_mismatch
    (tx : Transaction) (pre post : List Signer) (bad : Signer) (bh : Bytes)
    (hpre : ((tx.resetForBlockhash bh).applySigners pre).2 = none)
    (hbad : tx.message.signerPosition bad.pubkey = none) :
    tx.signBestEffort (pre ++ bad :: post) bh =
      (((tx.resetForBlockhash bh).applySigners pre).1, some .keypairPubkeyMismatch) ∧
    tx.signFull (pre ++ bad :: post) bh =
      (((tx.resetForBlockhash bh).applySigners pre).1, some .keypairPubkeyMismatch) := by
  have hbad2 : (((tx.resetForBlockhash bh).applySigners pre).1).message.signerPosition
      bad.pubkey = none := by
    rw [applySigners_message_eq, signerPosition_resetForBlockhash]
    exact hbad
  have hbe : tx.signBestEffort (pre ++ bad :: post) bh =
      (((tx.resetForBlockhash bh).applySigners pre).1, some .keypairPubkeyMismatch) := by
    unfold Transaction.signBestEffort
    rw [applySigners_append_of_ok pre _ _ hpre, applySigners_cons,
      applySigner_of_position_none hbad2]
  refine ⟨hbe, ?_⟩
  unfold Transaction.signFull
  rw [hbe]

/-- C4: partial_sign with a blockhash equal to message.recent_blockhash keeps
the existing state and only writes the slots of the requested signers
(accumulating across calls); with a different blockhash it first replaces
the blockhash and resets every slot to the default signature before applying
any requested signer. -/
theorem partial_sign_blockhash_semantics
    (tx : Transaction) (signers : List Signer) (bh : Bytes) :
    (bh = tx.message.recent_blockhash →
      tx.signBestEffort signers bh = tx.applySigners signers ∧
      ∀ i : Nat, (∀ s ∈ signers, tx.message.signerPosition s.pubkey ≠ some i) →
        ((tx.signBestEffort signers bh).1).signatures[i]? = tx.signatures[i]?) ∧
    (bh ≠ tx.message.recent_blockhash →
      tx.signBestEffort signers bh =
        Transaction.applySigners
          ⟨List.replicate tx.signatures.length defaultSignature,
           { tx.message with recent_blockhash := bh }⟩ signers) := by
  constructor
  · intro hbh
    have hid : tx.resetForBlockhash bh = tx := by
      unfold Transaction.resetForBlockhash
      rw [if_pos hbh]
    constructor
    · unfold Transaction.signBestEffort
      rw [hid]
    · intro i hi
      unfold Transaction.signBestEffort
      rw [hid]
      exact applySigners_untouched signers tx i hi
  · intro hbh
    unfold Transaction.signBestEffort Transaction.resetForBlockhash
    rw [if_neg hbh]

/-- C3 as stated fails on the model: with a blockhash different from
message.recent_blockhash, signing with a mismatching keypair raises the
mismatch error yet the pre-existing signature slots do not stay as they
were — they are reset to default by the blockhash replacement. -/
theorem sign_mismatch_alters_slots_counterexample :
    (Transaction.signFull
        ⟨[[7] ++ List.replicate 63 0],
         ⟨⟨1, 0, 1⟩, [List.replicate 32 1, List.replicate 32 2],
          List.replicate 32 0, []⟩⟩
        [Signer.keypair ⟨List.replicate 32 9⟩] (List.replicate 32 5)).2 =
      some SignerError.keypairPubkeyMismatch ∧
    ((Transaction.signFull
        ⟨[[7] ++ List.replicate 63 0],
         ⟨⟨1, 0, 1⟩, [List.replicate 32 1, List.replicate 32 2],
          List.replicate 32 0, []⟩⟩
        [Signer.keypair ⟨List.replicate 32 9⟩] (List.replicate 32 5)).1).signatures ≠
      [[7] ++ List.replicate 63 0] := by
  decide

/-- C3 (amended): when the blockhash passed equals message.recent_blockhash,
signing (sign or partial_sign) with a keypair whose pubkey is not among the
required signer accounts raises the mismatch error and leaves every existing
signature slot exactly as it was before the call. -/
theorem sign_mismatch_preserves_slots_same_blockhash
    (tx : Transaction) (kp : Keypair) (bh : Bytes)
    (hbh : bh = tx.message.recent_blockhash)
    (hmiss : tx.message.signerPosition kp.pubkey = none) :
    (tx.signFull [.keypair kp] bh).2 = some .keypairPubkeyMismatch ∧
    ((tx.signFull [.keypair kp] bh).1).signatures = tx.signatures ∧
    (tx.signBestEffort [.keypair kp] bh).2 = some .keypairPubkeyMismatch ∧
    ((tx.signBestEffort [.keypair kp] bh).1).signatures = tx.signatures := by
  have hid : tx.resetForBlockhash bh = tx := by
    unfold Transaction.resetForBlockhash
    rw [if_pos hbh]
  have hp : tx.message.signerPosition (Signer.pubkey (.keypair kp)) = none := hmiss
  have hbe : tx.signBestEffort [.keypair kp] bh = (tx, some .keypairPubkeyMismatch) := by
    unfold Transaction.signBestEffort
    rw [hid, applySigners_cons, applySigner_of_position_none hp]
  have hf : tx.signFull [.keypair kp] bh = (tx, some .keypairPubkeyMismatch) := by
    unfold Transaction.signFull
    rw [hbe]
  exact ⟨by rw [hf], by rw [hf], by rw [hbe], by rw [hbe]⟩

set_option maxRecDepth 100000 in
/-- Witness for C2: on the concrete two-signer transaction, signing with
[signer 0, stranger, signer 1] stops at the stranger with the mismatch
error, keeping exactly the first signer's work. -/
theorem sign_stops_at_first_mismatch_witness :
    Transaction.signBestEffort wTx
        ([Signer.keypair ⟨List.replicate 32 1⟩] ++ Signer.keypair ⟨List.replicate 32 9⟩ ::
          [Signer.keypair ⟨List.replicate 32 2⟩]) (List.replicate 32 0) =
      (((wTx.resetForBlockhash (List.replicate 32 0)).applySigners
          [Signer.keypair ⟨List.replicate 32 1⟩]).1, some .keypairPubkeyMismatch) ∧
    Transaction.signFull wTx
        ([Signer.keypair ⟨List.replicate 32 1⟩] ++ Signer.keypair ⟨List.replicate 32 9⟩ ::
          [Signer.keypair ⟨List.replicate 32 2⟩]) (List.replicate 32 0) =
      (((wTx.resetForBlockhash (List.replicate 32 0)).applySigners
          [Signer.keypair ⟨List.replicate 32 1⟩]).1, some .keypairPubkeyMismatch) :=
  sign_stops_at_first_mismatch wTx [Signer.keypair ⟨List.replicate 32 1⟩]
    [Signer.keypair ⟨List.replicate 32 2⟩] (Signer.keypair ⟨List.replicate 32 9⟩)
    (List.replicate 32 0) (by decide) (by decide)

set_option maxRecDepth 100000 in
/-- Witness for C4: on the concrete transaction, an equal blockhash keeps the
state and preserves the untouched slot 1, while a different blockhash resets
all slots before applying the signers. -/
theorem partial_sign_blockhash_semantics_witness :
    Transaction.signBestEffort wTx [Signer.keypair ⟨List.replicate 32 1⟩]
        (List.replicate 32 0) =
      wTx.applySigners [Signer.keypair ⟨List.replicate 32 1⟩] ∧
    ((Transaction.signBestEffort wTx [Signer.keypair ⟨List.replicate 32 1⟩]
        (List.replicate 32 0)).1).signatures[1]? = wTx.signatures[1]? ∧
    Transaction.signBestEffort wTx [Signer.keypair ⟨List.replicate 32 1⟩]
        (List.replicate 32 5) =
      Transaction.applySigners
        ⟨List.replicate wTx.signatures.length defaultSignature,
         { wTx.message with recent_blockhash := List.replicate 32 5 }⟩
        [Signer.keypair ⟨List.replicate 32 1⟩] := by
  refine ⟨((partial_sign_blockhash_semantics wTx
      [Signer.keypair ⟨List.replicate 32 1⟩] (List.replicate 32 0)).1 rfl).1,
    ((partial_sign_blockhash_semantics wTx
      [Signer.keypair ⟨List.replicate 32 1⟩] (List.replicate 32 0)).1 rfl).2 1 (by decide),
    (partial_sign_blockhash_semantics wTx
      [Signer.keypair ⟨List.replicate 32 1⟩] (List.replicate 32 5)).2 (by decide)⟩

set_option maxRecDepth 100000 in
/-- Witness for the amended C3: on the concrete transaction, a mismatching
keypair with the stored blockhash errors and leaves all slots unchanged. -/
theorem sign_mismatch_preserves_slots_same_blockhash_witness :
    (wTx.signFull [.keypair ⟨List.replicate 32 9⟩] (List.replicate 32 0)).2 =
      some .keypairPubkeyMismatch ∧
    ((wTx.signFull [.keypair ⟨List.replicate 32 9⟩] (List.replicate 32 0)).1).signatures =
      wTx.signatures ∧
    (wTx.signBestEffort [.keypair ⟨List.replicate 32 9⟩] (List.replicate 32 0)).2 =
      some .keypairPubkeyMismatch ∧
    ((wTx.signBestEffort [.keypair ⟨List.replicate 32 9⟩]
        (List.replicate 32 0)).1).signatures = wTx.signatures :=
  sign_mismatch_preserves_slots_same_blockhash wTx ⟨List.replicate 32 9⟩
    (List.replicate 32 0) rfl (by decide)

/-! ## Theorems: versioned transaction construction (claim C10) -/

/-- Zipping a mapped list with the original pairs each image with its source. -/
theorem zip_map_self {α β : Type} (f : α → β) (l : List α) :
    (l.map f).zip l = l.map fun a => (f a, a) := by
  induction l with
  | nil => rfl
  | cons a l ih => simp [ih]

/-- Selecting one keypair per expected key succeeds whenever every expected
key is covered, and the signatures taken from the selected keypairs agree
position by position with signing for the expected keys themselves. -/
theorem mapM_find_keypairs (kps : List Keypair) (B : Bytes) :
    ∀ keys : List Pubkey, (∀ pk ∈ keys, ∃ x ∈ kps, x.pubkey = pk) →
      ∃ found : List Keypair,
        optionMapM (fun pk => kps.find? fun kp => decide (kp.pubkey = pk)) keys =
          some found ∧
        found.map (fun kp => ed25519Sign kp.pubkey B) =
          keys.map fun pk => ed25519Sign pk B := by
  intro keys
  induction keys with
  | nil => intro _; exact ⟨[], rfl, rfl⟩
  | cons pk keys ih =>
    intro h
    obtain ⟨x, hx, hxpk⟩ := h pk (by simp)
    have hsome : (kps.find? fun kp => decide (kp.pubkey = pk)).isSome := by
      rw [List.find?_isSome]
      exact ⟨x, hx, by simp [hxpk]⟩
    obtain ⟨kp1, hkp1⟩ := Option.isSome_iff_exists.mp hsome
    have hkp1pk : kp1.pubkey = pk := by
      have := List.find?_some hkp1
      simpa using this
    obtain ⟨found, hfound, hmap⟩ := ih fun pk2 h2 => h pk2 (by simp [h2])
    refine ⟨kp1 :: found, ?_, ?_⟩
    · unfold optionMapM
      rw [hkp1, hfound]
    · simp [hmap, hkp1pk]

/-- C10: constructing a VersionedTransaction from a message and any list of
keypairs covering exactly the required signers (in any order) succeeds,
places at every slot the signature of the account key at that position of
the signer prefix, and verify_with_results() is all true. -/
theorem versioned_try_new_position_based
    (msg : VersionedMessage) (kps : List Keypair)
    (hperm : (kps.map Keypair.pubkey).Perm msg.expectedSigners) :
    ∃ vtx : VersionedTransaction,
      versionedTryNew msg kps = .ok vtx ∧
      vtx.signatures = msg.expectedSigners.map (fun pk => ed25519Sign pk msg.bytes) ∧
      vtx.verifyWithResults = List.replicate msg.expectedSigners.length true := by
  have hlen : kps.length = msg.expectedSigners.length := by
    simpa using hperm.length_eq
  have hcover : ∀ pk ∈ msg.expectedSigners, ∃ x ∈ kps, x.pubkey = pk := by
    intro pk hpk
    obtain ⟨x, hx, hxe⟩ := List.mem_map.mp (hperm.mem_iff.mpr hpk)
    exact ⟨x, hx, hxe⟩
  obtain ⟨found, hfound, hmap⟩ := mapM_find_keypairs kps msg.bytes
    msg.expectedSigners hcover
  refine ⟨⟨msg.expectedSigners.map (fun pk => ed25519Sign pk msg.bytes), msg⟩, ?_, rfl, ?_⟩
  · unfold versionedTryNew
    rw [if_neg (by omega), if_neg (by omega), hfound]
    simp [hmap]
  · unfold VersionedTransaction.verifyWithResults
    simp only [zip_map_self, List.map_map]
    have : ∀ pk : Pubkey,
        ed25519Verify (ed25519Sign pk msg.bytes) pk msg.bytes = true := by
      intro pk
      simp [ed25519Verify]
    calc (msg.expectedSigners.map fun pk =>
            ed25519Verify (ed25519Sign pk msg.bytes) pk msg.bytes)
        = msg.expectedSigners.map fun _ => true := by
          exact List.map_congr_left fun pk _ => this pk
      _ = List.replicate msg.expectedSigners.length true := List.map_const' _ _

set_option maxRecDepth 100000 in
/-- Witness for C10: the concrete two-signer legacy message signed with its
two keypairs listed in swapped order. -/
theorem versioned_try_new_position_based_witness :
    ∃ vtx : VersionedTransaction,
      versionedTryNew (.legacy wMsg) [⟨List.replicate 32 2⟩, ⟨List.replicate 32 1⟩] =
        .ok vtx ∧
      vtx.signatures = (VersionedMessage.legacy wMsg).expectedSigners.map
        (fun pk => ed25519Sign pk (VersionedMessage.legacy wMsg).bytes) ∧
      vtx.verifyWithResults =
        List.replicate (VersionedMessage.legacy wMsg).expectedSigners.length true :=
  versioned_try_new_position_based (.legacy wMsg)
    [⟨List.replicate 32 2⟩, ⟨List.replicate 32 1⟩] (by decide)

/-! ## Theorems: serialization round-trip (claim C8) -/

/-- Reading one byte from a cons cell. -/
theorem readByte_cons (b : Nat) (l : Bytes) : readByte (b :: l) = some (b, l) := rfl

/-- Decoding inverts the fuel-bounded compact-length encoding. -/
theorem decodeLen_encodeLenAux :
    ∀ fuel n : Nat, n < fuel → ∀ rest : Bytes,
      decodeLen (encodeLenAux fuel n ++ rest) = some (n, rest) := by
  intro fuel
  induction fuel with
  | zero => intro n h; omega
  | succ fuel ih =>
    intro n h rest
    unfold encodeLenAux
    by_cases h128 : n < 128
    · rw [if_pos h128, List.cons_append, List.nil_append]
      simp only [decodeLen]
      rw [if_pos h128]
    · rw [if_neg h128, List.cons_append]
      have hdivlt : n / 128 < n := Nat.div_lt_self (by omega) (by omega)
      simp only [decodeLen]
      rw [if_neg (by omega)]
      simp only [ih (n / 128) (by omega) rest, Option.some.injEq, Prod.mk.injEq, and_true]
      omega

/-- Decoding inverts the compact-length encoding, leaving the rest intact. -/
theorem decodeLen_encodeLen (n : Nat) (rest : Bytes) :
    decodeLen (encodeLen n ++ rest) = some (n, rest) :=
  decodeLen_encodeLenAux (n + 1) n (by omega) rest

/-- Reading exactly the length of a leading chunk returns it. -/
theorem readChunk_append (l rest : Bytes) :
    readChunk l.length (l ++ rest) = some (l, rest) := by
  unfold readChunk
  rw [if_pos (by simp)]
  rw [List.take_left, List.drop_left]

/-- Variant of `readChunk_append` with the length given by a hypothesis. -/
theorem readChunk_append_of_length {n : Nat} {l : Bytes} (h : l.length = n)
    (rest : Bytes) : readChunk n (l ++ rest) = some (l, rest) := by
  subst h
  exact readChunk_append l rest

/-- Repeated reading inverts concatenated serializations item by item. -/
theorem readCount_flatMap {α : Type} (p : Bytes → Option (α × Bytes)) (ser : α → Bytes)
    (xs : List α) (hx : ∀ x ∈ xs, ∀ r : Bytes, p (ser x ++ r) = some (x, r)) :
    ∀ rest : Bytes, readCount p xs.length (xs.flatMap ser ++ rest) = some (xs, rest) := by
  induction xs with
  | nil => intro rest; rfl
  | cons x xs ih =>
    intro rest
    have harr : (x :: xs).flatMap ser ++ rest = ser x ++ (xs.flatMap ser ++ rest) := by
      simp
    rw [List.length_cons, harr]
    unfold readCount
    simp only [hx x (by simp), ih (fun y hy r => hx y (by simp [hy]) r) rest]

/-- Parsing inverts the serialization of one compiled instruction. -/
theorem parseCompiledIx_serialize (cix : CompiledInstruction) (rest : Bytes) :
    parseCompiledIx (serializeCompiledIx cix ++ rest) = some (cix, rest) := by
  unfold serializeCompiledIx parseCompiledIx
  simp only [List.cons_append, List.append_assoc, readByte_cons, decodeLen_encodeLen,
    readChunk_append]

/-- Parsing inverts message serialization when keys and blockhash have their
wire widths. -/
theorem parseMessage_serialize (m : Message)
    (hkeys : ∀ k ∈ m.account_keys, k.length = 32)
    (hbh : m.recent_blockhash.length = 32) (rest : Bytes) :
    parseMessage (serializeMessage m ++ rest) = some (m, rest) := by
  have hflat : m.account_keys.flatten = m.account_keys.flatMap (fun k => k) := by
    simp [List.flatMap_def]
  unfold serializeMessage parseMessage
  simp only [hflat, List.cons_append, List.nil_append, List.append_assoc, readByte_cons,
    decodeLen_encodeLen,
    readCount_flatMap (readChunk 32) (fun k => k) m.account_keys
      (fun k hk r => readChunk_append_of_length (hkeys k hk) r),
    readChunk_append_of_length hbh,
    readCount_flatMap parseCompiledIx serializeCompiledIx m.instructions
      (fun ix _ r => parseCompiledIx_serialize ix r)]

/-- C8: for every valid Transaction — signed, partially signed or unsigned —
deserializing its serialized byte form yields a value equal to the original:
from_bytes(bytes(tx)) = tx. -/
theorem transaction_roundtrip (tx : Transaction) (h : tx.wellFormed) :
    transactionFromBytes (serializeTransaction tx) = some tx := by
  obtain ⟨-, hsig, hkeys, hbh⟩ := h
  have hflat : tx.signatures.flatten = tx.signatures.flatMap (fun s => s) := by
    simp [List.flatMap_def]
  have hmsg := parseMessage_serialize tx.message hkeys hbh []
  rw [List.append_nil] at hmsg
  unfold serializeTransaction transactionFromBytes
  simp only [hflat, List.append_assoc, decodeLen_encodeLen,
    readCount_flatMap (readChunk 64) (fun s => s) tx.signatures
      (fun s hs r => readChunk_append_of_length (hsig s hs) r),
    hmsg]

/-! ## Theorems: canonical account compilation (claim C1) -/

/-- Totality of the character-wise lexicographic comparison. -/
theorem lexLe_total : ∀ u v : List Nat, lexLe u v = true ∨ lexLe v u = true := by
  intro u
  induction u with
  | nil => intro v; exact Or.inl rfl
  | cons a as ih =>
    intro v
    cases v with
    | nil => exact Or.inr rfl
    | cons b bs =>
      simp only [lexLe]
      rcases Nat.lt_trichotomy a b with h | h | h
      · left
        rw [if_pos h]
      · subst h
        rw [if_neg (lt_irrefl a), if_pos rfl, if_neg (lt_irrefl a), if_pos rfl]
        exact ih bs
      · right
        rw [if_pos h]

/-- Transitivity of the character-wise lexicographic comparison. -/
theorem lexLe_trans : ∀ u v w : List Nat,
    lexLe u v = true → lexLe v w = true → lexLe u w = true := by
  intro u
  induction u with
  | nil => intro v w _ _; rfl
  | cons a as ih =>
    intro v w huv hvw
    cases v with
    | nil => simp [lexLe] at huv
    | cons b bs =>
      cases w with
      | nil => simp [lexLe] at hvw
      | cons c cs =>
        simp only [lexLe] at huv hvw ⊢
        by_cases hab : a < b
        · by_cases hbc : b < c
          · rw [if_pos (lt_trans hab hbc)]
          · by_cases hbc2 : b = c
            · subst hbc2
              rw [if_pos hab]
            · rw [if_neg hbc, if_neg hbc2] at hvw
              simp at hvw
        · by_cases hab2 : a = b
          · subst hab2
            rw [if_neg hab, if_pos rfl] at huv
            by_cases hbc : a < c
            · rw [if_pos hbc]
            · by_cases hbc2 : a = c
              · subst hbc2
                rw [if_neg hbc, if_pos rfl] at hvw ⊢
                exact ih bs cs huv hvw
              · rw [if_neg hbc, if_neg hbc2] at hvw
                simp at hvw
          · rw [if_neg hab, if_neg hab2] at huv
            simp at huv

/-- The canonical key order is total. -/
theorem keyOrder_total (reqs : List AccountMeta) :
    ∀ a b : Pubkey, keyOrder reqs a b ∨ keyOrder reqs b a := by
  intro a b
  rcases Nat.lt_trichotomy (categoryRank reqs a) (categoryRank reqs b) with h | h | h
  · exact Or.inl (Or.inl h)
  · rcases lexLe_total (charCodes (base58Encode a)) (charCodes (base58Encode b)) with hl | hl
    · exact Or.inl (Or.inr ⟨h, hl⟩)
    · exact Or.inr (Or.inr ⟨h.symm, hl⟩)
  · exact Or.inr (Or.inl h)

/-- The canonical key order is transitive. -/
theorem keyOrder_trans (reqs : List AccountMeta) :
    ∀ a b c : Pubkey, keyOrder reqs a b → keyOrder reqs b c → keyOrder reqs a c := by
  intro a b c hab hbc
  rcases hab with h1 | ⟨h1, h1b⟩ <;> rcases hbc with h2 | ⟨h2, h2b⟩
  · exact Or.inl (lt_trans h1 h2)
  · exact Or.inl (h2 ▸ h1)
  · exact Or.inl (h1 ▸ h2)
  · exact Or.inr ⟨h1.trans h2, lexLe_trans _ _ _ h1b h2b⟩

/-- In a list sorted so that a downward-closed test never turns back on, the
elements passing the test are exactly the first `countP` positions. -/
theorem countP_prefix_iff {α : Type} (p : α → Bool) :
    ∀ l : List α, List.Pairwise (fun a b => p b = true → p a = true) l →
      ∀ i, (hi : i < l.length) → (i < l.countP p ↔ p l[i] = true) := by
  intro l
  induction l with
  | nil => intro _ i hi; simp at hi
  | cons a l ih =>
    intro hp i hi
    obtain ⟨hhead, htail⟩ := List.pairwise_cons.mp hp
    by_cases hpa : p a = true
    · rw [List.countP_cons_of_pos _ _ hpa]
      cases i with
      | zero => simpa using hpa
      | succ i =>
        simp only [List.getElem_cons_succ]
        rw [Nat.succ_lt_succ_iff]
        exact ih htail i (by simpa using hi)
    · have hall : ∀ b ∈ l, ¬p b = true := fun b hb hpb => hpa (hhead b hb hpb)
      have hcount : (a :: l).countP p = 0 := by
        rw [List.countP_eq_zero]
        intro b hb
        rcases List.mem_cons.mp hb with h | h
        · rw [h]; exact hpa
        · exact hall b h
      rw [hcount]
      constructor
      · intro h0
        exact absurd h0 (by omega)
      · intro hpl
        exfalso
        cases i with
        | zero => exact hpa hpl
        | succ i => exact hall _ (List.getElem_mem _) hpl

/-- Splitting a count along a second test. -/
theorem countP_split {α : Type} (p q : α → Bool) (l : List α) :
    l.countP p =
      l.countP (fun a => p a && q a) + l.countP (fun a => p a && !q a) := by
  induction l with
  | nil => rfl
  | cons a l ih =>
    simp only [List.countP_cons, ih]
    cases hpa : p a <;> cases hqa : q a <;> simp <;> omega

/-- The category rank is at most 3. -/
theorem categoryRank_le_three (reqs : List AccountMeta) (pk : Pubkey) :
    categoryRank reqs pk ≤ 3 := by
  unfold categoryRank
  cases mergedIsSigner reqs pk <;> cases mergedIsWritable reqs pk <;> simp

/-- Signers are exactly the accounts of category at most 1. -/
theorem categoryRank_le_one_iff (reqs : List AccountMeta) (pk : Pubkey) :
    (categoryRank reqs pk ≤ 1) ↔ mergedIsSigner reqs pk = true := by
  unfold categoryRank
  cases mergedIsSigner reqs pk <;> cases mergedIsWritable reqs pk <;> simp

/-- Writable signers are exactly the accounts of category 0. -/
theorem categoryRank_le_zero_iff (reqs : List AccountMeta) (pk : Pubkey) :
    (categoryRank reqs pk ≤ 0) ↔
      (mergedIsSigner reqs pk && mergedIsWritable reqs pk) = true := by
  unfold categoryRank
  cases mergedIsSigner reqs pk <;> cases mergedIsWritable reqs pk <;> simp

/-- Readonly non-signers are exactly the accounts of category above 2. -/
theorem categoryRank_le_two_iff (reqs : List AccountMeta) (pk : Pubkey) :
    (categoryRank reqs pk ≤ 2) ↔
      ¬(!mergedIsSigner reqs pk && !mergedIsWritable reqs pk) = true := by
  unfold categoryRank
  cases mergedIsSigner reqs pk <;> cases mergedIsWritable reqs pk <;> simp

/-- Writable accounts are exactly those of category 0 or 2. -/
theorem categoryRank_writable_iff (reqs : List AccountMeta) (pk : Pubkey) :
    mergedIsWritable reqs pk = true ↔
      (categoryRank reqs pk = 0 ∨ categoryRank reqs pk = 2) := by
  unfold categoryRank
  cases mergedIsSigner reqs pk <;> cases mergedIsWritable reqs pk <;> simp

/-- Readonly signers are exactly the accounts of category 1. -/
theorem categoryRank_eq_one_iff (reqs : List AccountMeta) (pk : Pubkey) :
    (mergedIsSigner reqs pk && !mergedIsWritable reqs pk) = true ↔
      categoryRank reqs pk = 1 := by
  unfold categoryRank
  cases mergedIsSigner reqs pk <;> cases mergedIsWritable reqs pk <;> simp

/-- Unfolding of the account table for a present payer. -/
theorem compiledKeys_some (payer : Pubkey) (ixs : List Instruction) :
    compiledKeys (some payer) ixs =
      payer :: List.insertionSort (keyOrder (allRequests (some payer) ixs))
        ((((allRequests (some payer) ixs).map AccountMeta.pubkey).dedup).filter
          fun k => decide (k ≠ payer)) := rfl

/-- The payer itself is merged as a writable signer. -/
theorem payer_rank_zero (payer : Pubkey) (ixs : List Instruction) :
    categoryRank (allRequests (some payer) ixs) payer = 0 := by
  have hs : mergedIsSigner (allRequests (some payer) ixs) payer = true := by
    unfold mergedIsSigner allRequests
    simp
  have hw : mergedIsWritable (allRequests (some payer) ixs) payer = true := by
    unfold mergedIsWritable allRequests
    simp
  unfold categoryRank
  rw [hs, hw]

/-- Membership in the compiled table is exactly being requested. -/
theorem compiledKeys_mem_iff (payer : Pubkey) (ixs : List Instruction) (pk : Pubkey) :
    pk ∈ compiledKeys (some payer) ixs ↔
      pk ∈ (allRequests (some payer) ixs).map AccountMeta.pubkey := by
  rw [compiledKeys_some]
  constructor
  · intro h
    rcases List.mem_cons.mp h with h | h
    · subst h
      unfold allRequests
      simp
    · have h1 := (List.perm_insertionSort _ _).mem_iff.mp h
      exact List.mem_dedup.mp (List.mem_filter.mp h1).1
  · intro h
    by_cases hp : pk = payer
    · subst hp
      exact List.mem_cons_self _ _
    · refine List.mem_cons.mpr (Or.inr ?_)
      refine (List.perm_insertionSort _ _).mem_iff.mpr ?_
      exact List.mem_filter.mpr ⟨List.mem_dedup.mpr h, by simp [hp]⟩

/-- The compiled table has no duplicates. -/
theorem compiledKeys_nodup (payer : Pubkey) (ixs : List Instruction) :
    (compiledKeys (some payer) ixs).Nodup := by
  rw [compiledKeys_some]
  refine List.nodup_cons.mpr ⟨?_, ?_⟩
  · intro hmem
    have h1 := (List.perm_insertionSort _ _).mem_iff.mp hmem
    have h2 := (List.mem_filter.mp h1).2
    simp at h2
  · exact ((List.perm_insertionSort _ _).nodup_iff).mpr
      (List.Nodup.filter _ (List.nodup_dedup _))

/-- The non-payer tail of the compiled table is sorted by the canonical order. -/
theorem compiledKeys_tail_sorted (payer : Pubkey) (ixs : List Instruction) :
    List.Pairwise (keyOrder (allRequests (some payer) ixs))
      ((compiledKeys (some payer) ixs).drop 1) := by
  haveI : IsTotal Pubkey (keyOrder (allRequests (some payer) ixs)) :=
    ⟨keyOrder_total _⟩
  haveI : IsTrans Pubkey (keyOrder (allRequests (some payer) ixs)) :=
    ⟨keyOrder_trans _⟩
  rw [compiledKeys_some]
  simpa using List.sorted_insertionSort (keyOrder (allRequests (some payer) ixs)) _

/-- Category ranks never decrease along the compiled table. -/
theorem compiledKeys_rank_mono (payer : Pubkey) (ixs : List Instruction) :
    List.Pairwise
      (fun a b => categoryRank (allRequests (some payer) ixs) a ≤
        categoryRank (allRequests (some payer) ixs) b)
      (compiledKeys (some payer) ixs) := by
  have htail : List.Pairwise (keyOrder (allRequests (some payer) ixs))
      (List.insertionSort (keyOrder (allRequests (some payer) ixs))
        ((((allRequests (some payer) ixs).map AccountMeta.pubkey).dedup).filter
          fun k => decide (k ≠ payer))) := by
    have := compiledKeys_tail_sorted payer ixs
    rw [compiledKeys_some] at this
    simpa using this
  rw [compiledKeys_some]
  refine List.pairwise_cons.mpr ⟨?_, ?_⟩
  · intro b _
    rw [payer_rank_zero]
    exact Nat.zero_le _
  · refine htail.imp ?_
    intro a b hab
    rcases hab with h | ⟨h, _⟩
    · exact le_of_lt h
    · exact le_of_eq h

/-- Fields of a successfully compiled message. -/
theorem messageNew_fields {ixs : List Instruction} {payer : Option Pubkey}
    {bh : Bytes} {msg : Message} (h : messageNew ixs payer bh = some msg) :
    msg.header = headerOf (allRequests payer ixs) (compiledKeys payer ixs) ∧
    msg.account_keys = compiledKeys payer ixs := by
  unfold messageNew at h
  split at h
  · cases hmap : optionMapM (compileIx (compiledKeys payer ixs)) ixs with
    | none => rw [hmap] at h; exact absurd h (by simp)
    | some cixs =>
      rw [hmap] at h
      cases h
      exact ⟨rfl, rfl⟩
  · exact absurd h (by simp)

/-- C1: every Message compiled from a payer and an ordered list of
Instructions has an account table with no duplicate pubkey; the payer is
first; the rest is ordered by ascending category — writable signers,
readonly signers, writable non-signers, readonly non-signers, the categories
taken from the OR-merge of all requests — with ties inside a category broken
by ascending lexicographic order of the base58 string; the table holds
exactly the requested keys; and the positional signer/writable meaning of
every index agrees with the OR-merge of the requests for the key stored
there. -/
theorem compile_canonical
    (ixs : List Instruction) (payer : Pubkey) (bh : Bytes) (msg : Message)
    (h : messageNew ixs (some payer) bh = some msg) :
    msg.account_keys.Nodup ∧
    msg.account_keys.head? = some payer ∧
    List.Pairwise
      (fun a b => categoryRank (allRequests (some payer) ixs) a <
          categoryRank (allRequests (some payer) ixs) b ∨
        (categoryRank (allRequests (some payer) ixs) a =
            categoryRank (allRequests (some payer) ixs) b ∧
          base58Le a b = true))
      (msg.account_keys.drop 1) ∧
    (∀ pk : Pubkey, pk ∈ msg.account_keys ↔
      pk ∈ (allRequests (some payer) ixs).map AccountMeta.pubkey) ∧
    (∀ (i : Nat) (pk : Pubkey), msg.account_keys[i]? = some pk →
      ((i < msg.header.num_required_signatures ↔
          mergedIsSigner (allRequests (some payer) ixs) pk = true) ∧
        (msg.is_writable i = true ↔
          mergedIsWritable (allRequests (some payer) ixs) pk = true))) := by
  obtain ⟨hheader, hkeys⟩ := messageNew_fields h
  refine ⟨?_, ?_, ?_, ?_, ?_⟩
  · rw [hkeys]
    exact compiledKeys_nodup payer ixs
  · rw [hkeys, compiledKeys_some]
    rfl
  · rw [hkeys]
    exact compiledKeys_tail_sorted payer ixs
  · intro pk
    rw [hkeys]
    exact compiledKeys_mem_iff payer ixs pk
  · intro i pk hpk
    rw [hkeys] at hpk
    obtain ⟨hi, hieq⟩ := List.getElem?_eq_some.mp hpk
    have hrank := compiledKeys_rank_mono payer ixs
    have hpw : ∀ k : Nat, List.Pairwise (fun a b =>
        decide (categoryRank (allRequests (some payer) ixs) b ≤ k) = true →
        decide (categoryRank (allRequests (some payer) ixs) a ≤ k) = true)
        (compiledKeys (some payer) ixs) := by
      intro k
      refine hrank.imp ?_
      intro a b hab
      simp only [decide_eq_true_iff]
      omega
    have h0 := countP_prefix_iff _ _ (hpw 0) i hi
    have h1 := countP_prefix_iff _ _ (hpw 1) i hi
    have h2 := countP_prefix_iff _ _ (hpw 2) i hi
    rw [hieq] at h0 h1 h2
    simp only [decide_eq_true_iff] at h0 h1 h2
    have hr3 := categoryRank_le_three (allRequests (some payer) ixs) pk
    have hnrs : msg.header.num_required_signatures =
        (compiledKeys (some payer) ixs).countP fun k =>
          decide (categoryRank (allRequests (some payer) ixs) k ≤ 1) := by
      rw [hheader]
      exact List.countP_congr fun k _ => by
        simp only [decide_eq_true_iff]
        exact (categoryRank_le_one_iff (allRequests (some payer) ixs) k).symm
    have hnros : msg.header.num_readonly_signed_accounts =
        (compiledKeys (some payer) ixs).countP fun k =>
          mergedIsSigner (allRequests (some payer) ixs) k &&
            !mergedIsWritable (allRequests (some payer) ixs) k := by
      rw [hheader]
      rfl
    have hsplit1 := countP_split
      (fun k => decide (categoryRank (allRequests (some payer) ixs) k ≤ 1))
      (fun k => decide (categoryRank (allRequests (some payer) ixs) k ≤ 0))
      (compiledKeys (some payer) ixs)
    have hpq : (compiledKeys (some payer) ixs).countP
        (fun k => decide (categoryRank (allRequests (some payer) ixs) k ≤ 1) &&
          decide (categoryRank (allRequests (some payer) ixs) k ≤ 0)) =
        (compiledKeys (some payer) ixs).countP fun k =>
          decide (categoryRank (allRequests (some payer) ixs) k ≤ 0) :=
      List.countP_congr fun k _ => by
        simp only [Bool.and_eq_true, decide_eq_true_iff]
        omega
    have hpnq : (compiledKeys (some payer) ixs).countP
        (fun k => decide (categoryRank (allRequests (some payer) ixs) k ≤ 1) &&
          !decide (categoryRank (allRequests (some payer) ixs) k ≤ 0)) =
        (compiledKeys (some payer) ixs).countP fun k =>
          mergedIsSigner (allRequests (some payer) ixs) k &&
            !mergedIsWritable (allRequests (some payer) ixs) k :=
      List.countP_congr fun k _ => by
        rw [categoryRank_eq_one_iff]
        have h3 := categoryRank_le_three (allRequests (some payer) ixs) k
        simp only [Bool.and_eq_true, Bool.not_eq_true', decide_eq_true_iff,
          decide_eq_false_iff_not]
        omega
    have hc0 : msg.header.num_required_signatures -
        msg.header.num_readonly_signed_accounts =
        (compiledKeys (some payer) ixs).countP fun k =>
          decide (categoryRank (allRequests (some payer) ixs) k ≤ 0) := by
      omega
    have hnrou : msg.header.num_readonly_unsigned_accounts =
        (compiledKeys (some payer) ixs).countP fun k =>
          !mergedIsSigner (allRequests (some payer) ixs) k &&
            !mergedIsWritable (allRequests (some payer) ixs) k := by
      rw [hheader]
      rfl
    have hlen := List.length_eq_countP_add_countP
      (fun k => decide (categoryRank (allRequests (some payer) ixs) k ≤ 2))
      (compiledKeys (some payer) ixs)
    have hneg : (compiledKeys (some payer) ixs).countP
        (fun k => decide ¬(decide (categoryRank (allRequests (some payer) ixs) k ≤ 2)
          = true)) =
        (compiledKeys (some payer) ixs).countP fun k =>
          !mergedIsSigner (allRequests (some payer) ixs) k &&
            !mergedIsWritable (allRequests (some payer) ixs) k :=
      List.countP_congr fun k _ => by
        have hiff := categoryRank_le_two_iff (allRequests (some payer) ixs) k
        simp only [decide_eq_true_iff]
        rw [hiff, not_not]
    have hc2 : (compiledKeys (some payer) ixs).length -
        msg.header.num_readonly_unsigned_accounts =
        (compiledKeys (some payer) ixs).countP fun k =>
          decide (categoryRank (allRequests (some payer) ixs) k ≤ 2) := by
      omega
    constructor
    · rw [hnrs, ← categoryRank_le_one_iff]
      exact h1
    · unfold Message.is_writable
      rw [hkeys]
      simp only [Bool.or_eq_true, Bool.and_eq_true, decide_eq_true_iff]
      rw [categoryRank_writable_iff, hc0, hnrs, hc2]
      omega

set_option maxRecDepth 1000000 in
/-- Witness for C1: the concrete two-instruction fixture compiles to a table
with every canonical property, obtained by applying the claim theorem. -/
theorem compile_canonical_witness :
    c1Msg.account_keys.Nodup ∧
    c1Msg.account_keys.head? = some c1Payer ∧
    List.Pairwise
      (fun a b => categoryRank (allRequests (some c1Payer) c1Ixs) a <
          categoryRank (allRequests (some c1Payer) c1Ixs) b ∨
        (categoryRank (allRequests (some c1Payer) c1Ixs) a =
            categoryRank (allRequests (some c1Payer) c1Ixs) b ∧
          base58Le a b = true))
      (c1Msg.account_keys.drop 1) ∧
    (∀ pk : Pubkey, pk ∈ c1Msg.account_keys ↔
      pk ∈ (allRequests (some c1Payer) c1Ixs).map AccountMeta.pubkey) ∧
    (∀ (i : Nat) (pk : Pubkey), c1Msg.account_keys[i]? = some pk →
      ((i < c1Msg.header.num_required_signatures ↔
          mergedIsSigner (allRequests (some c1Payer) c1Ixs) pk = true) ∧
        (c1Msg.is_writable i = true ↔
          mergedIsWritable (allRequests (some c1Payer) c1Ixs) pk = true))) :=
  compile_canonical c1Ixs c1Payer (List.replicate 32 0) c1Msg (by decide)

set_option maxRecDepth 1000000 in
/-- Witness for C8: the concrete partially signed transaction over `wMsg`
round-trips through the wire format. -/
theorem transaction_roundtrip_witness :
    transactionFromBytes (serializeTransaction
      (Transaction.signBestEffort wTx [Signer.keypair ⟨List.replicate 32 1⟩]
        (List.replicate 32 0)).1) =
      some (Transaction.signBestEffort wTx [Signer.keypair ⟨List.replicate 32 1⟩]
        (List.replicate 32 0)).1 :=
  transaction_roundtrip _ (by decide)

end Solders
